import Mathlib

/-!
Shallow embedding of the Pack layout engine
(`src/core/src/toga/style/pack.py`, class `Pack`): the style record, the
intrinsic-size hints, the recursive layout algorithm (`Pack._layout_node`,
`Pack._layout_row_children`, `Pack._layout_column_children`) and the
top-level entry point (`Pack.layout`).

Modelling conventions:
  * Python numbers are modelled as `ℚ` (the engine mixes ints and the
    real-valued flex quantum); style sizes and margins, which the
    declaration layer validates as integers, are `ℤ`.
  * `int(x)` (Python truncation towards zero) is `pyInt`.
  * The mutation of `node.layout` is turned into a returned tree of
    `LNode`s.  `Pack._layout_node` never touches `content_top`/
    `content_left` of the node itself (they are assigned by the parent's
    pass 3/4, or by `Pack.layout` for the root), so `layoutNode`
    initialises them to 0 and the caller overwrites them.
  * Each node carries the pre-call contents of its `layout` slot
    (`prior`).  The algorithm can observe it only where CPython could
    observe a stale layout box, namely when a child reaches pass 3
    without having been laid out in pass 1 or pass 2 of the same call
    (`Option.getD (staleNode c)` below), and when the recursion fuel is
    exhausted.  Neither happens in a real run; this is proved, not
    assumed.
-/

namespace Pack

/-- Python `int()` applied to a rational: truncation towards zero. -/
def pyInt (q : ℚ) : ℤ := if 0 ≤ q then ⌊q⌋ else ⌈q⌉

/-- `direction` style choice: `ROW` or `COLUMN`. -/
inductive Direction where
  | row
  | column
deriving DecidableEq, BEq, Repr

/-- `text_direction` style choice: `LTR` or `RTL`. -/
inductive TextDirection where
  | ltr
  | rtl
deriving DecidableEq, BEq, Repr

/-- `align_items` style choice: `START`, `CENTER` or `END`. -/
inductive AlignItems where
  | start
  | center
  | endAlign
deriving DecidableEq, Repr

/-- One intrinsic dimension: absent (`None`), a fixed numeric value, or
travertino's `at_least` wrapper (an object with a `.value` attribute,
the case selected by `hasattr(..., "value")` in the source). -/
inductive IntrinsicDim where
  | absent
  | fixed (v : ℚ)
  | atLeast (v : ℚ)
deriving DecidableEq, Repr

/-- The style attributes read by the layout algorithm, pre-validated by
the declaration layer: `width`/`height` are `NONE` or an integer,
margins are integers, `flex` is a number, `align_items` is optional. -/
structure Style where
  width : Option ℤ
  height : Option ℤ
  direction : Direction
  flex : ℚ
  margin_top : ℤ
  margin_right : ℤ
  margin_bottom : ℤ
  margin_left : ℤ
  align_items : Option AlignItems
  text_direction : TextDirection
deriving DecidableEq, Repr

/-- `node.intrinsic`: externally supplied intrinsic width/height. -/
structure IntrinsicSize where
  width : IntrinsicDim
  height : IntrinsicDim
deriving DecidableEq, Repr

/-- The fields of `node.layout` (travertino `BaseBox`) that the engine
writes and the claims read. -/
structure Box where
  content_width : ℚ
  content_height : ℚ
  min_content_width : ℚ
  min_content_height : ℚ
  content_top : ℚ
  content_left : ℚ
deriving DecidableEq, Repr

/-- An all-zero layout box. -/
def Box.zero : Box := ⟨0, 0, 0, 0, 0, 0⟩

mutual
/-- A widget node: one style record, one intrinsic size, the pre-call
contents of its layout slot, and an ordered list of children. -/
inductive Node where
  | mk (style : Style) (intrinsic : IntrinsicSize) (prior : Box) (children : NodeList)

/-- The children of a node, as a bespoke list so that recursion over the
tree is structural. -/
inductive NodeList where
  | nil
  | cons (head : Node) (tail : NodeList)
end

def Node.style : Node → Style
  | .mk s _ _ _ => s

def Node.intrinsic : Node → IntrinsicSize
  | .mk _ i _ _ => i

def Node.prior : Node → Box
  | .mk _ _ p _ => p

def Node.children : Node → NodeList
  | .mk _ _ _ cs => cs

/-- View the children as an ordinary list. -/
def NodeList.toList : NodeList → List Node
  | .nil => []
  | .cons c cs => c :: cs.toList

mutual
/-- Number of nodes in a tree (used as recursion fuel). -/
def nsize : Node → Nat
  | .mk _ _ _ cs => nsizeList cs + 1

/-- Total number of nodes in a list of trees. -/
def nsizeList : NodeList → Nat
  | .nil => 0
  | .cons c cs => nsize c + nsizeList cs
end

/-- The computed layout of a node: its final box and the layouts of its
children (the functional image of the mutated `node.layout` slots). -/
inductive LNode where
  | mk (box : Box) (children : List LNode)

def LNode.box : LNode → Box
  | .mk b _ => b

def LNode.children : LNode → List LNode
  | .mk _ cs => cs

def LNode.content_width (l : LNode) : ℚ := l.box.content_width
def LNode.content_height (l : LNode) : ℚ := l.box.content_height
def LNode.min_content_width (l : LNode) : ℚ := l.box.min_content_width
def LNode.min_content_height (l : LNode) : ℚ := l.box.min_content_height
def LNode.content_top (l : LNode) : ℚ := l.box.content_top
def LNode.content_left (l : LNode) : ℚ := l.box.content_left

/-- Overwrite `content_left` of a node's own box (pass 3/4 mutation). -/
def LNode.setLeft : LNode → ℚ → LNode
  | .mk b cs, x => .mk { b with content_left := x } cs

/-- Overwrite `content_top` of a node's own box (pass 3/4 mutation). -/
def LNode.setTop : LNode → ℚ → LNode
  | .mk b cs, x => .mk { b with content_top := x } cs

mutual
/-- The layout tree showing the pre-call (stale) contents of every
`layout` slot: what an observer would read if the engine did no work. -/
def staleNode : Node → LNode
  | .mk _ _ p cs => .mk p (staleList cs)

def staleList : NodeList → List LNode
  | .nil => []
  | .cons c cs => staleNode c :: staleList cs
end

/-- The type of the recursive child-layout procedure
(`child.style._layout_node(child, alloc_width, alloc_height,
use_all_width, use_all_height)`), abstracted so that the row/column
procedures are non-recursive. -/
abbrev LayoutFn := Node → ℚ → ℚ → Bool → Bool → LNode

/-! ## `Pack._layout_row_children` -/

/-- The outcome of pass 1 of `_layout_row_children` for one child:
the child's layout if it was laid out in pass 1 (`none` = deferred to
pass 2), `child_content_width`, `min_child_content_width`, and the
contributions this child makes to `flex_total` and `min_flex`. -/
structure RowP1 where
  ln : Option LNode
  ccw : ℚ
  mcw : ℚ
  dflex : ℚ
  dminflex : ℚ

/-- Pass-1 branch of `_layout_row_children` for one child
(`pack.py` lines 433–507). -/
def rowPass1Child (lf : LayoutFn) (available_height remaining_width : ℚ)
    (c : Node) : RowP1 :=
  match c.style.width with
  | some _ =>
    -- fixed width
    let ln := lf c remaining_width available_height false
      (c.style.direction == .row)
    ⟨some ln, ln.content_width, ln.content_width, 0, 0⟩
  | none =>
    match c.intrinsic.width with
    | .atLeast v =>
      if c.style.flex ≠ 0 then
        -- intrinsic flex width: deferred to pass 2
        ⟨none, v, v, c.style.flex,
          (c.style.margin_left : ℚ) + v + c.style.margin_right⟩
      else
        -- intrinsic non-flex: laid out with alloc_width=0
        let ln := lf c 0 available_height false (c.style.direction == .row)
        ⟨some ln, ln.content_width, ln.content_width, 0, 0⟩
    | .fixed _ =>
      -- fixed-numeric intrinsic (no `.value` attribute)
      let ln := lf c remaining_width available_height false
        (c.style.direction == .row)
      ⟨some ln, ln.content_width, ln.content_width, 0, 0⟩
    | .absent =>
      if c.style.flex ≠ 0 then
        -- unspecified flex width: deferred to pass 2
        ⟨none, 0, 0, c.style.flex, 0⟩
      else
        -- unspecified non-flex width
        let ln := lf c remaining_width available_height false
          (c.style.direction == .row)
        ⟨some ln, ln.content_width, ln.min_content_width, 0, 0⟩

/-- The running totals of pass 1 of `_layout_row_children`. -/
structure RowSt where
  flex_total : ℚ
  min_flex : ℚ
  width : ℚ
  min_width : ℚ
  remaining_width : ℚ

/-- The pass-1 loop of `_layout_row_children`: lays out fixed children,
collects flex totals, and accumulates `width`, `min_width` and
`remaining_width`. -/
def rowPass1 (lf : LayoutFn) (available_height : ℚ) :
    RowSt → List Node → RowSt × List (Node × RowP1)
  | st, [] => (st, [])
  | st, c :: cs =>
    let p := rowPass1Child lf available_height st.remaining_width c
    let child_width := (c.style.margin_left : ℚ) + p.ccw + c.style.margin_right
    let min_child_width :=
      (c.style.margin_left : ℚ) + p.mcw + c.style.margin_right
    let st' : RowSt :=
      { flex_total := st.flex_total + p.dflex
        min_flex := st.min_flex + p.dminflex
        width := st.width + child_width
        min_width := st.min_width + min_child_width
        remaining_width := st.remaining_width - child_width }
    let r := rowPass1 lf available_height st' cs
    (r.1, (c, p) :: r.2)

/-- One step of the overflow-removal loop between passes 1 and 2 of
`_layout_row_children` (lines 532–546): a flex child whose flexible
minimum width exceeds its ideal share is removed from the flex
accounting. -/
def rowOverflowStep (q0 : ℚ) (acc : ℚ × ℚ) (c : Node) : ℚ × ℚ :=
  if c.style.flex ≠ 0 then
    match c.intrinsic.width with
    | .atLeast v =>
      if v > q0 * c.style.flex then
        (acc.1 - c.style.flex,
         acc.2 - ((c.style.margin_left : ℚ) + v + c.style.margin_right))
      else acc
    | .fixed _ => acc  -- AttributeError: intrinsic width isn't flexible
    | .absent => acc
  else acc

/-- The flex-quantum computation between passes 1 and 2 of
`_layout_row_children` (lines 525–553), including the removal of flex
children whose flexible minimum width overflows their ideal share. -/
def rowQuantum (children : List Node) (st : RowSt) : ℚ :=
  if 0 < st.flex_total then
    let q0 := (st.remaining_width + st.min_flex) / st.flex_total
    let p := children.foldl (rowOverflowStep q0) (st.flex_total, st.min_flex)
    if 0 < p.1 then (st.remaining_width + p.2) / p.1 else 0
  else 0

/-- Pass-2 branch of `_layout_row_children` for one child
(lines 558–630): the child's final layout together with the adjustments
to the running `width` and `min_width` totals. -/
def rowPass2Child (lf : LayoutFn) (available_height quantum : ℚ)
    (c : Node) (p : RowP1) : LNode × ℚ × ℚ :=
  match c.style.width with
  | some _ =>
    -- already laid out (explicit width)
    (p.ln.getD (staleNode c), 0, 0)
  | none =>
    if c.style.flex ≠ 0 then
      match c.intrinsic.width with
      | .atLeast v =>
        let base := (c.style.margin_left : ℚ) + v + c.style.margin_right
        let alloc := if quantum * c.style.flex > base
          then quantum * c.style.flex else base
        let ln := lf c alloc available_height true (c.style.direction == .row)
        (ln, ln.content_width - v, ln.min_content_width - v)
      | .fixed _ =>
        -- already laid out (fixed intrinsic width)
        (p.ln.getD (staleNode c), 0, 0)
      | .absent =>
        let alloc := if quantum ≠ 0 then quantum * c.style.flex
          else (c.style.margin_left : ℚ) + c.style.margin_right
        let ln := lf c alloc available_height true (c.style.direction == .row)
        (ln, ln.content_width, ln.min_content_width)
    else
      -- already laid out (intrinsic non-flex width)
      (p.ln.getD (staleNode c), 0, 0)

/-- The pass-2 loop of `_layout_row_children`, returning the final
child layouts and the total adjustments to `width` and `min_width`. -/
def rowPass2 (lf : LayoutFn) (available_height quantum : ℚ) :
    List (Node × RowP1) → List (Node × LNode) × ℚ × ℚ
  | [] => ([], 0, 0)
  | (c, p) :: rest =>
    let r := rowPass2Child lf available_height quantum c p
    let rs := rowPass2 lf available_height quantum rest
    ((c, r.1) :: rs.1, r.2.1 + rs.2.1, r.2.2 + rs.2.2)

/-- The pass-3 loop of `_layout_row_children` (lines 639–668): assign
horizontal positions (respecting `text_direction`) and accumulate the
row's `height` and `min_height`. -/
def rowPass3 (rtl : Bool) (width : ℚ) :
    ℚ → ℚ → ℚ → List (Node × LNode) → List (Node × LNode) × ℚ × ℚ
  | _, height, min_height, [] => ([], height, min_height)
  | offset, height, min_height, (c, ln) :: rest =>
    let r : LNode × ℚ :=
      if rtl then
        let o := offset + ln.content_width + c.style.margin_right
        (ln.setLeft (width - o), o + c.style.margin_left)
      else
        let o := offset + c.style.margin_left
        (ln.setLeft o, o + ln.content_width + c.style.margin_right)
    let child_height :=
      (c.style.margin_top : ℚ) + ln.content_height + c.style.margin_bottom
    let min_child_height :=
      (c.style.margin_top : ℚ) + ln.min_content_height + c.style.margin_bottom
    let rs := rowPass3 rtl width r.2 (max height child_height)
      (max min_height min_child_height) rest
    ((c, r.1) :: rs.1, rs.2.1, rs.2.2)

/-- Pass-4 branch of `_layout_row_children` for one child
(lines 675–693): vertical alignment within the row. -/
def rowPass4Child (align_items : Option AlignItems) (height : ℚ)
    (c : Node) (ln : LNode) : LNode :=
  let extra := height - (ln.content_height + c.style.margin_top
    + c.style.margin_bottom)
  match align_items with
  | some .endAlign => ln.setTop (extra + c.style.margin_top)
  | some .center => ln.setTop ((pyInt (extra / 2) : ℚ) + c.style.margin_top)
  | _ => ln.setTop c.style.margin_top

/-- The pass-4 loop of `_layout_row_children`. -/
def rowPass4 (align_items : Option AlignItems) (height : ℚ) :
    List (Node × LNode) → List LNode
  | [] => []
  | (c, ln) :: rest =>
    rowPass4Child align_items height c ln :: rowPass4 align_items height rest

/-- `Pack._layout_row_children` (lines 414–694): returns the children's
final layouts and `(min_width, width, min_height, height)`. -/
def layoutRowChildren (lf : LayoutFn) (style : Style) (children : List Node)
    (available_width available_height : ℚ)
    (use_all_width use_all_height : Bool) :
    List LNode × ℚ × ℚ × ℚ × ℚ :=
  let p1 := rowPass1 lf available_height
    ⟨0, 0, 0, 0, available_width⟩ children
  let st := p1.1
  let quantum := rowQuantum children st
  let p2 := rowPass2 lf available_height quantum p1.2
  let width0 := st.width + p2.2.1
  let min_width := st.min_width + p2.2.2
  let width := if use_all_width then max width0 available_width else width0
  let p3 := rowPass3 (style.text_direction == .rtl) width 0 0 0 p2.1
  let height0 := p3.2.1
  let min_height := p3.2.2
  let height := if use_all_height then max height0 available_height
    else height0
  let lns := rowPass4 style.align_items height p3.1
  (lns, min_width, width, min_height, height)

/-! ## `Pack._layout_column_children` -/

/-- The outcome of pass 1 of `_layout_column_children` for one child:
mirror of `RowP1` on the vertical axis. -/
structure ColP1 where
  ln : Option LNode
  cch : ℚ
  mch : ℚ
  dflex : ℚ
  dminflex : ℚ

/-- Pass-1 branch of `_layout_column_children` for one child
(`pack.py` lines 715–791). -/
def colPass1Child (lf : LayoutFn) (available_width remaining_height : ℚ)
    (c : Node) : ColP1 :=
  match c.style.height with
  | some _ =>
    -- fixed height
    let ln := lf c available_width remaining_height
      (c.style.direction == .column) false
    ⟨some ln, ln.content_height, ln.content_height, 0, 0⟩
  | none =>
    match c.intrinsic.height with
    | .atLeast v =>
      if c.style.flex ≠ 0 then
        -- intrinsic flex height: deferred to pass 2
        ⟨none, v, v, c.style.flex,
          (c.style.margin_top : ℚ) + v + c.style.margin_bottom⟩
      else
        -- intrinsic non-flex: laid out with alloc_height=0
        let ln := lf c available_width 0 (c.style.direction == .column) false
        ⟨some ln, ln.content_height, ln.content_height, 0, 0⟩
    | .fixed _ =>
      -- fixed-numeric intrinsic (no `.value` attribute)
      let ln := lf c available_width remaining_height
        (c.style.direction == .column) false
      ⟨some ln, ln.content_height, ln.content_height, 0, 0⟩
    | .absent =>
      if c.style.flex ≠ 0 then
        -- unspecified flex height: deferred to pass 2
        ⟨none, 0, 0, c.style.flex, 0⟩
      else
        -- unspecified non-flex height
        let ln := lf c available_width remaining_height
          (c.style.direction == .column) false
        ⟨some ln, ln.content_height, ln.min_content_height, 0, 0⟩

/-- The running totals of pass 1 of `_layout_column_children`. -/
structure ColSt where
  flex_total : ℚ
  min_flex : ℚ
  height : ℚ
  min_height : ℚ
  remaining_height : ℚ

/-- The pass-1 loop of `_layout_column_children`. -/
def colPass1 (lf : LayoutFn) (available_width : ℚ) :
    ColSt → List Node → ColSt × List (Node × ColP1)
  | st, [] => (st, [])
  | st, c :: cs =>
    let p := colPass1Child lf available_width st.remaining_height c
    let child_height := (c.style.margin_top : ℚ) + p.cch + c.style.margin_bottom
    let min_child_height :=
      (c.style.margin_top : ℚ) + p.mch + c.style.margin_bottom
    let st' : ColSt :=
      { flex_total := st.flex_total + p.dflex
        min_flex := st.min_flex + p.dminflex
        height := st.height + child_height
        min_height := st.min_height + min_child_height
        remaining_height := st.remaining_height - child_height }
    let r := colPass1 lf available_width st' cs
    (r.1, (c, p) :: r.2)

/-- Column mirror of `rowOverflowStep` (lines 818–832). -/
def colOverflowStep (q0 : ℚ) (acc : ℚ × ℚ) (c : Node) : ℚ × ℚ :=
  if c.style.flex ≠ 0 then
    match c.intrinsic.height with
    | .atLeast v =>
      if v > q0 * c.style.flex then
        (acc.1 - c.style.flex,
         acc.2 - ((c.style.margin_top : ℚ) + v + c.style.margin_bottom))
      else acc
    | .fixed _ => acc  -- AttributeError: intrinsic height isn't flexible
    | .absent => acc
  else acc

/-- The flex-quantum computation of `_layout_column_children`
(lines 811–839). -/
def colQuantum (children : List Node) (st : ColSt) : ℚ :=
  if 0 < st.flex_total then
    let q0 := (st.remaining_height + st.min_flex) / st.flex_total
    let p := children.foldl (colOverflowStep q0) (st.flex_total, st.min_flex)
    if 0 < p.1 then (p.2 + st.remaining_height) / p.1 else 0
  else 0

/-- Pass-2 branch of `_layout_column_children` for one child
(lines 845–920). -/
def colPass2Child (lf : LayoutFn) (available_width quantum : ℚ)
    (c : Node) (p : ColP1) : LNode × ℚ × ℚ :=
  match c.style.height with
  | some _ =>
    -- already laid out (explicit height)
    (p.ln.getD (staleNode c), 0, 0)
  | none =>
    if c.style.flex ≠ 0 then
      match c.intrinsic.height with
      | .atLeast v =>
        let base := (c.style.margin_top : ℚ) + v + c.style.margin_bottom
        let alloc := if quantum * c.style.flex > base
          then quantum * c.style.flex else base
        let ln := lf c available_width alloc (c.style.direction == .column) true
        (ln, ln.content_height - v, ln.min_content_height - v)
      | .fixed _ =>
        -- already laid out (fixed intrinsic height)
        (p.ln.getD (staleNode c), 0, 0)
      | .absent =>
        let alloc := if quantum ≠ 0 then quantum * c.style.flex
          else (c.style.margin_top : ℚ) + c.style.margin_bottom
        let ln := lf c available_width alloc (c.style.direction == .column) true
        (ln, ln.content_height, ln.min_content_height)
    else
      -- already laid out (intrinsic non-flex height)
      (p.ln.getD (staleNode c), 0, 0)

/-- The pass-2 loop of `_layout_column_children`. -/
def colPass2 (lf : LayoutFn) (available_width quantum : ℚ) :
    List (Node × ColP1) → List (Node × LNode) × ℚ × ℚ
  | [] => ([], 0, 0)
  | (c, p) :: rest =>
    let r := colPass2Child lf available_width quantum c p
    let rs := colPass2 lf available_width quantum rest
    ((c, r.1) :: rs.1, r.2.1 + rs.2.1, r.2.2 + rs.2.2)

/-- The pass-3 loop of `_layout_column_children` (lines 927–948):
assign vertical positions (always top-to-bottom) and accumulate the
column's `width` and `min_width`. -/
def colPass3 :
    ℚ → ℚ → ℚ → List (Node × LNode) → List (Node × LNode) × ℚ × ℚ
  | _, width, min_width, [] => ([], width, min_width)
  | offset, width, min_width, (c, ln) :: rest =>
    let o := offset + c.style.margin_top
    let ln' := ln.setTop o
    let offset' := o + ln.content_height + c.style.margin_bottom
    let child_width :=
      ln.content_width + c.style.margin_left + c.style.margin_right
    let min_child_width :=
      (c.style.margin_left : ℚ) + ln.min_content_width + c.style.margin_right
    let rs := colPass3 offset' (max width child_width)
      (max min_width min_child_width) rest
    ((c, ln') :: rs.1, rs.2.1, rs.2.2)

/-- Pass-4 branch of `_layout_column_children` for one child
(lines 955–972): horizontal alignment within the column, combining
`text_direction` and `align_items`. -/
def colPass4Child (text_direction : TextDirection)
    (align_items : Option AlignItems) (width : ℚ)
    (c : Node) (ln : LNode) : LNode :=
  let extra := width - (ln.content_width + c.style.margin_left
    + c.style.margin_right)
  match text_direction, align_items with
  | .ltr, some .endAlign => ln.setLeft (extra + c.style.margin_left)
  | .rtl, some .start => ln.setLeft (extra + c.style.margin_left)
  | _, some .center => ln.setLeft ((pyInt (extra / 2) : ℚ) + c.style.margin_left)
  | _, _ => ln.setLeft c.style.margin_left

/-- The pass-4 loop of `_layout_column_children`. -/
def colPass4 (text_direction : TextDirection)
    (align_items : Option AlignItems) (width : ℚ) :
    List (Node × LNode) → List LNode
  | [] => []
  | (c, ln) :: rest =>
    colPass4Child text_direction align_items width c ln
      :: colPass4 text_direction align_items width rest

/-- `Pack._layout_column_children` (lines 696–974): returns the
children's final layouts and `(min_width, width, min_height, height)`. -/
def layoutColumnChildren (lf : LayoutFn) (style : Style)
    (children : List Node) (available_width available_height : ℚ)
    (use_all_width use_all_height : Bool) :
    List LNode × ℚ × ℚ × ℚ × ℚ :=
  let p1 := colPass1 lf available_width
    ⟨0, 0, 0, 0, available_height⟩ children
  let st := p1.1
  let quantum := colQuantum children st
  let p2 := colPass2 lf available_width quantum p1.2
  let height0 := st.height + p2.2.1
  let min_height := st.min_height + p2.2.2
  let height := if use_all_height then max height0 available_height
    else height0
  let p3 := colPass3 0 0 0 p2.1
  let width0 := p3.2.1
  let min_width := p3.2.2
  let width := if use_all_width then max width0 available_width else width0
  let lns := colPass4 style.text_direction style.align_items width p3.1
  (lns, min_width, width, min_height, height)

/-! ## `Pack._layout_node` and `Pack.layout` -/

/-- Steps 1–2 of `_layout_node` (lines 318–370): resolve one axis's
available size and minimum against the explicit style size and the
intrinsic size.  Returns `(available, minimum)`.  A flexible-wrapped
intrinsic grows the available size to at least its value; a fixed
numeric intrinsic replaces the available size outright. -/
def availMin (explicit : Option ℤ) (intrinsic : IntrinsicDim) (alloc : ℚ)
    (m1 m2 : ℤ) : ℚ × ℚ :=
  match explicit with
  | some w => ((w : ℚ), (w : ℚ))
  | none =>
    let a := max 0 (alloc - m1 - m2)
    match intrinsic with
    | .atLeast v => (max a v, v)
    | .fixed v => (v, v)
    | .absent => (a, 0)

/-- `Pack._layout_node` (lines 302–412), with explicit recursion fuel
(one unit per tree level; `Pack.layout` supplies `nsize`, which is
always enough).  Returns the node's computed layout; its own
`content_top`/`content_left` are left at 0 for the caller to assign. -/
def layoutNode : Nat → Node → ℚ → ℚ → Bool → Bool → LNode
  | 0, n, _, _, _, _ => staleNode n
  | fuel + 1, n, alloc_width, alloc_height, use_all_width, use_all_height =>
    let s := n.style
    -- establish available width
    let awm : ℚ × ℚ :=
      availMin s.width n.intrinsic.width alloc_width s.margin_left
        s.margin_right
    -- establish available height
    let ahm : ℚ × ℚ :=
      availMin s.height n.intrinsic.height alloc_height s.margin_top
        s.margin_bottom
    let res : List LNode × ℚ × ℚ × ℚ × ℚ :=
      match n.children with
      | .nil => ([], awm.2, awm.1, ahm.2, ahm.1)
      | .cons c cs =>
        if s.direction == .column then
          layoutColumnChildren (layoutNode fuel) s
            (NodeList.cons c cs).toList awm.1 ahm.1
            use_all_width use_all_height
        else
          layoutRowChildren (layoutNode fuel) s
            (NodeList.cons c cs).toList awm.1 ahm.1
            use_all_width use_all_height
    -- an explicit width/height overrides the result of child layout
    let width := match s.width with
      | some w => (w : ℚ)
      | none => res.2.2.1
    let min_width := match s.width with
      | some w => (w : ℚ)
      | none => res.2.1
    let height := match s.height with
      | some h => (h : ℚ)
      | none => res.2.2.2.2
    let min_height := match s.height with
      | some h => (h : ℚ)
      | none => res.2.2.2.1
    LNode.mk
      ⟨(pyInt width : ℚ), (pyInt height : ℚ),
       (pyInt min_width : ℚ), (pyInt min_height : ℚ), 0, 0⟩
      res.1

/-- `Pack.layout` (lines 282–300): lay the root out against the full
viewport with both use-all flags set, then position the root's content
box at its own margins. -/
def layout (n : Node) (viewport_width viewport_height : ℚ) : LNode :=
  let r := layoutNode (nsize n) n viewport_width viewport_height true true
  (r.setTop n.style.margin_top).setLeft n.style.margin_left

/-! ## Basic simplification lemmas -/

@[simp] theorem row_beq_row : (Direction.row == Direction.row) = true := rfl

@[simp] theorem column_beq_row : (Direction.column == Direction.row) = false := rfl

@[simp] theorem row_beq_column : (Direction.row == Direction.column) = false := rfl

@[simp] theorem column_beq_column : (Direction.column == Direction.column) = true := rfl

@[simp] theorem ltr_beq_rtl : (TextDirection.ltr == TextDirection.rtl) = false := rfl

@[simp] theorem rtl_beq_rtl : (TextDirection.rtl == TextDirection.rtl) = true := rfl

@[simp] theorem ltr_beq_ltr : (TextDirection.ltr == TextDirection.ltr) = true := rfl

@[simp] theorem rtl_beq_ltr : (TextDirection.rtl == TextDirection.ltr) = false := rfl

@[simp] theorem LNode.box_mk (b : Box) (cs : List LNode) : (LNode.mk b cs).box = b := rfl

@[simp] theorem LNode.children_mk_eq (b : Box) (cs : List LNode) :
    (LNode.mk b cs).children = cs := rfl

@[simp] theorem Node.style_mk (s : Style) (i : IntrinsicSize) (p : Box) (cs : NodeList) :
    (Node.mk s i p cs).style = s := rfl

@[simp] theorem Node.intrinsic_mk (s : Style) (i : IntrinsicSize) (p : Box) (cs : NodeList) :
    (Node.mk s i p cs).intrinsic = i := rfl

@[simp] theorem Node.prior_mk (s : Style) (i : IntrinsicSize) (p : Box) (cs : NodeList) :
    (Node.mk s i p cs).prior = p := rfl

@[simp] theorem Node.children_mk (s : Style) (i : IntrinsicSize) (p : Box) (cs : NodeList) :
    (Node.mk s i p cs).children = cs := rfl

@[simp] theorem LNode.setLeft_mk (b : Box) (cs : List LNode) (x : ℚ) :
    (LNode.mk b cs).setLeft x = LNode.mk { b with content_left := x } cs := rfl

@[simp] theorem LNode.setTop_mk (b : Box) (cs : List LNode) (x : ℚ) :
    (LNode.mk b cs).setTop x = LNode.mk { b with content_top := x } cs := rfl

/-- `content_width` and the other dimensions are unchanged by the
position assignments of passes 3 and 4. -/
@[simp] theorem LNode.box_setLeft (l : LNode) (x : ℚ) :
    (l.setLeft x).box = { l.box with content_left := x } := by
  cases l <;> rfl

@[simp] theorem LNode.box_setTop (l : LNode) (x : ℚ) :
    (l.setTop x).box = { l.box with content_top := x } := by
  cases l <;> rfl

@[simp] theorem LNode.children_setLeft (l : LNode) (x : ℚ) :
    (l.setLeft x).children = l.children := by
  cases l <;> rfl

@[simp] theorem LNode.children_setTop (l : LNode) (x : ℚ) :
    (l.setTop x).children = l.children := by
  cases l <;> rfl

/-- `pyInt` of an integer is that integer. -/
@[simp] theorem pyInt_intCast (z : ℤ) : pyInt (z : ℚ) = z := by
  unfold pyInt
  split <;> simp

/-- `pyInt` agrees with `Int.floor` on non-negative arguments. -/
theorem pyInt_of_nonneg {q : ℚ} (h : 0 ≤ q) : pyInt q = ⌊q⌋ := if_pos h

/-- `pyInt` is monotone (truncation towards zero preserves order). -/
theorem pyInt_mono {a b : ℚ} (h : a ≤ b) : pyInt a ≤ pyInt b := by
  unfold pyInt
  rcases le_or_lt 0 a with ha | ha
  · rw [if_pos ha, if_pos (le_trans ha h)]
    exact Int.floor_le_floor h
  · rw [if_neg (not_le.mpr ha)]
    rcases le_or_lt 0 b with hb | hb
    · rw [if_pos hb]
      calc ⌈a⌉ ≤ 0 := Int.ceil_le.mpr (by exact_mod_cast ha.le)
        _ ≤ ⌊b⌋ := Int.floor_nonneg.mpr hb
    · rw [if_neg (not_le.mpr hb)]
      exact Int.ceil_le_ceil h

/-! ## Claim C10: cross-axis use-all flags at every recursive call -/

/-- Congruence for the pass-1 branch: the `use_all_height` argument of
every `lf` call is literally `child.style.direction == ROW`. -/
theorem rowPass1Child_uh (lf : LayoutFn) (ah rw : ℚ) (c : Node) :
    rowPass1Child
      (fun c' aw' ah' uw' _ => lf c' aw' ah' uw' (c'.style.direction == .row))
      ah rw c = rowPass1Child lf ah rw c := rfl

theorem rowPass2Child_uh (lf : LayoutFn) (ah q : ℚ) (c : Node) (p : RowP1) :
    rowPass2Child
      (fun c' aw' ah' uw' _ => lf c' aw' ah' uw' (c'.style.direction == .row))
      ah q c p = rowPass2Child lf ah q c p := rfl

theorem rowPass1_uh (lf : LayoutFn) (ah : ℚ) :
    ∀ (st : RowSt) (cs : List Node),
      rowPass1
        (fun c' aw' ah' uw' _ => lf c' aw' ah' uw' (c'.style.direction == .row))
        ah st cs = rowPass1 lf ah st cs
  | _, [] => rfl
  | st, c :: cs => by
    simp only [rowPass1, rowPass1Child_uh, rowPass1_uh lf ah _ cs]

theorem rowPass2_uh (lf : LayoutFn) (ah q : ℚ) :
    ∀ prs : List (Node × RowP1),
      rowPass2
        (fun c' aw' ah' uw' _ => lf c' aw' ah' uw' (c'.style.direction == .row))
        ah q prs = rowPass2 lf ah q prs
  | [] => rfl
  | (c, p) :: rest => by
    simp only [rowPass2, rowPass2Child_uh, rowPass2_uh lf ah q rest]

theorem colPass1Child_uw (lf : LayoutFn) (aw rh : ℚ) (c : Node) :
    colPass1Child
      (fun c' aw' ah' _ uh' => lf c' aw' ah' (c'.style.direction == .column) uh')
      aw rh c = colPass1Child lf aw rh c := rfl

theorem colPass2Child_uw (lf : LayoutFn) (aw q : ℚ) (c : Node) (p : ColP1) :
    colPass2Child
      (fun c' aw' ah' _ uh' => lf c' aw' ah' (c'.style.direction == .column) uh')
      aw q c p = colPass2Child lf aw q c p := rfl

theorem colPass1_uw (lf : LayoutFn) (aw : ℚ) :
    ∀ (st : ColSt) (cs : List Node),
      colPass1
        (fun c' aw' ah' _ uh' => lf c' aw' ah' (c'.style.direction == .column) uh')
        aw st cs = colPass1 lf aw st cs
  | _, [] => rfl
  | st, c :: cs => by
    simp only [colPass1, colPass1Child_uw, colPass1_uw lf aw _ cs]

theorem colPass2_uw (lf : LayoutFn) (aw q : ℚ) :
    ∀ prs : List (Node × ColP1),
      colPass2
        (fun c' aw' ah' _ uh' => lf c' aw' ah' (c'.style.direction == .column) uh')
        aw q prs = colPass2 lf aw q prs
  | [] => rfl
  | (c, p) :: rest => by
    simp only [colPass2, colPass2Child_uw, colPass2_uw lf aw q rest]

/-- Claim C10: inside `_layout_row_children` every recursive
`_layout_node` call (all pass-1 branches and pass 2) receives
`use_all_height = (child.style.direction == ROW)` — replacing the
`use_all_height` argument of the child-layout procedure by that value
changes nothing; symmetrically, inside `_layout_column_children` every
recursive call receives `use_all_width = (child.style.direction ==
COLUMN)`.  A row-direction child is therefore stretched to the row's
cross-axis allocation while a column-direction child is not, and
mirrored for columns. -/
theorem C10_cross_axis_stretch_flags (lf : LayoutFn) (style : Style)
    (children : List Node) (aw ah : ℚ) (uw uh : Bool) :
    layoutRowChildren
        (fun c aw' ah' uw' _ => lf c aw' ah' uw' (c.style.direction == .row))
        style children aw ah uw uh
      = layoutRowChildren lf style children aw ah uw uh
    ∧ layoutColumnChildren
        (fun c aw' ah' _ uh' => lf c aw' ah' (c.style.direction == .column) uh')
        style children aw ah uw uh
      = layoutColumnChildren lf style children aw ah uw uh := by
  constructor
  · simp only [layoutRowChildren, rowPass1_uh, rowPass2_uh]
  · simp only [layoutColumnChildren, colPass1_uw, colPass2_uw]

/-! ## Claim C7: vertical alignment within a row (pass 4) -/

/-- Claim C7: in row pass 4, with
`extra = height − (content_height + margin_top + margin_bottom)`,
`align_items = END` gives `content_top = extra + margin_top`,
`align_items = CENTER` gives `content_top = int(extra/2) + margin_top`
(which is `⌊extra/2⌋ + margin_top` whenever `0 ≤ extra`, as is always
the case when `height` comes from pass 3), and `START` or unset gives
`content_top = margin_top`. -/
theorem C7_row_vertical_alignment (ai : Option AlignItems) (height : ℚ)
    (c : Node) (ln : LNode) (extra : ℚ)
    (hextra : extra = height - (ln.content_height + c.style.margin_top
      + c.style.margin_bottom)) :
    (ai = some .endAlign →
      (rowPass4Child ai height c ln).content_top
        = extra + c.style.margin_top)
    ∧ (ai = some .center →
      (rowPass4Child ai height c ln).content_top
          = (pyInt (extra / 2) : ℚ) + c.style.margin_top
        ∧ (0 ≤ extra →
          (rowPass4Child ai height c ln).content_top
            = (⌊extra / 2⌋ : ℚ) + c.style.margin_top))
    ∧ ((ai = some .start ∨ ai = none) →
      (rowPass4Child ai height c ln).content_top
        = (c.style.margin_top : ℚ)) := by
  subst hextra
  refine ⟨fun h => ?_, fun h => ?_, fun h => ?_⟩
  · subst h
    simp [rowPass4Child, LNode.content_top]
  · subst h
    constructor
    · simp [rowPass4Child, LNode.content_top]
    · intro hpos
      have : pyInt ((height - (ln.content_height + ↑c.style.margin_top
          + ↑c.style.margin_bottom)) / 2)
          = ⌊(height - (ln.content_height + ↑c.style.margin_top
          + ↑c.style.margin_bottom)) / 2⌋ :=
        pyInt_of_nonneg (by positivity)
      simp [rowPass4Child, LNode.content_top, this]
  · rcases h with h | h <;> subst h <;>
      simp [rowPass4Child, LNode.content_top]

/-! ## Claim C8: horizontal alignment within a column (pass 4) -/

/-- Claim C8: in column pass 4, with
`extra = width − (content_width + margin_left + margin_right)`, the
child is aligned to the trailing edge (`content_left = extra +
margin_left`) exactly when `(text_direction, align_items)` is
`(LTR, END)` or `(RTL, START)`; otherwise `CENTER` gives `content_left
= int(extra/2) + margin_left` and every other combination gives
`content_left = margin_left`. -/
theorem C8_column_horizontal_alignment (td : TextDirection)
    (ai : Option AlignItems) (width : ℚ) (c : Node) (ln : LNode) (extra : ℚ)
    (hextra : extra = width - (ln.content_width + c.style.margin_left
      + c.style.margin_right)) :
    (((td = .ltr ∧ ai = some .endAlign) ∨ (td = .rtl ∧ ai = some .start)) →
      (colPass4Child td ai width c ln).content_left
        = extra + c.style.margin_left)
    ∧ (¬((td = .ltr ∧ ai = some .endAlign) ∨ (td = .rtl ∧ ai = some .start)) →
        ai = some .center →
      (colPass4Child td ai width c ln).content_left
        = (pyInt (extra / 2) : ℚ) + c.style.margin_left)
    ∧ (¬((td = .ltr ∧ ai = some .endAlign) ∨ (td = .rtl ∧ ai = some .start)) →
        ai ≠ some .center →
      (colPass4Child td ai width c ln).content_left
        = (c.style.margin_left : ℚ)) := by
  subst hextra
  refine ⟨fun h => ?_, fun h hc => ?_, fun h hc => ?_⟩
  · rcases h with ⟨h1, h2⟩ | ⟨h1, h2⟩ <;> subst h1 <;> subst h2 <;>
      simp [colPass4Child, LNode.content_left]
  · subst hc
    rcases td with _ | _ <;> simp [colPass4Child, LNode.content_left]
  · rcases td with _ | _ <;>
      rcases ai with _ | ⟨_ | _ | _⟩ <;>
      simp_all [colPass4Child, LNode.content_left]

/-- A margin-free leaf node used to instantiate the alignment rules. -/
def alignChild : Node :=
  Node.mk ⟨none, none, .row, 0, 0, 0, 0, 0, none, .ltr⟩ ⟨.absent, .absent⟩
    Box.zero .nil

/-- A laid-out box of content size 10×20 used to instantiate the
alignment rules. -/
def alignBox : LNode := LNode.mk ⟨10, 20, 0, 0, 0, 0⟩ []

/-- Witness for C7: in a row of height 100 with a child of
content_height 20 and no margins, CENTER puts the child at
content_top 40, END at 80, START and unset at 0. -/
theorem C7_row_vertical_alignment_witness :
    (rowPass4Child (some .center) 100 alignChild alignBox).content_top = 40
    ∧ (rowPass4Child (some .endAlign) 100 alignChild alignBox).content_top = 80
    ∧ (rowPass4Child (some .start) 100 alignChild alignBox).content_top = 0
    ∧ (rowPass4Child none 100 alignChild alignBox).content_top = 0 := by
  have hextra : (80 : ℚ) = 100 - (alignBox.content_height
      + alignChild.style.margin_top + alignChild.style.margin_bottom) := by
    norm_num [alignBox, alignChild, LNode.content_height]
  have h := C7_row_vertical_alignment (some .center) 100 alignChild alignBox
    80 hextra
  have h2 := C7_row_vertical_alignment (some .endAlign) 100 alignChild alignBox
    80 hextra
  have h3 := C7_row_vertical_alignment (some .start) 100 alignChild alignBox
    80 hextra
  have h4 := C7_row_vertical_alignment none 100 alignChild alignBox 80 hextra
  refine ⟨?_, ?_, ?_, ?_⟩
  · rw [(h.2.1 rfl).2 (by norm_num)]
    norm_num [alignChild]
  · rw [h2.1 rfl]
    norm_num [alignChild]
  · rw [h3.2.2 (Or.inl rfl)]
    norm_num [alignChild]
  · rw [h4.2.2 (Or.inr rfl)]
    norm_num [alignChild]

/-- Witness for C8: in a column of width 100 with a child of
content_width 10 and no margins, (LTR, END) and (RTL, START) put the
child at content_left 90, (LTR, CENTER) at 45, and (RTL, END) at 0. -/
theorem C8_column_horizontal_alignment_witness :
    (colPass4Child .ltr (some .endAlign) 100 alignChild alignBox).content_left
      = 90
    ∧ (colPass4Child .rtl (some .start) 100 alignChild alignBox).content_left
      = 90
    ∧ (colPass4Child .ltr (some .center) 100 alignChild alignBox).content_left
      = 45
    ∧ (colPass4Child .rtl (some .endAlign) 100 alignChild alignBox).content_left
      = 0 := by
  have hextra : (90 : ℚ) = 100 - (alignBox.content_width
      + alignChild.style.margin_left + alignChild.style.margin_right) := by
    norm_num [alignBox, alignChild, LNode.content_width]
  have h1 := C8_column_horizontal_alignment .ltr (some .endAlign) 100
    alignChild alignBox 90 hextra
  have h2 := C8_column_horizontal_alignment .rtl (some .start) 100
    alignChild alignBox 90 hextra
  have h3 := C8_column_horizontal_alignment .ltr (some .center) 100
    alignChild alignBox 90 hextra
  have h4 := C8_column_horizontal_alignment .rtl (some .endAlign) 100
    alignChild alignBox 90 hextra
  refine ⟨?_, ?_, ?_, ?_⟩
  · rw [h1.1 (Or.inl ⟨rfl, rfl⟩)]
    norm_num [alignChild]
  · rw [h2.1 (Or.inr ⟨rfl, rfl⟩)]
    norm_num [alignChild]
  · rw [h3.2.1 (by simp) rfl]
    norm_num [alignChild, pyInt]
  · rw [h4.2.2 (by simp) (by simp)]
    norm_num [alignChild]

/-! ## Claims C3 and C4: pass-1 treatment of intrinsic widths -/

/-- A child with no explicit width, a fixed (non-flexible) numeric
intrinsic width of 10, flex weight 1, and margins 2/3. -/
def fixedFlexChild : Node :=
  Node.mk ⟨none, none, .row, 1, 0, 3, 0, 2, none, .ltr⟩
    ⟨.fixed 10, .absent⟩ Box.zero .nil

/-- A child with no explicit width, a flexible-wrapped intrinsic width
of 10 (lower bound), flex weight 1, and margins 2/3. -/
def flexibleFlexChild : Node :=
  Node.mk ⟨none, none, .row, 1, 0, 3, 0, 2, none, .ltr⟩
    ⟨.atLeast 10, .absent⟩ Box.zero .nil

/-- Counterexample to C3: a child with a fixed numeric intrinsic width
and flex 1 is laid out immediately in pass 1 — it is not deferred, and
neither `flex_total` nor `min_flex` is increased. -/
theorem C3_counterexample :
    ¬ ((rowPass1Child (layoutNode 1) 50 100 fixedFlexChild).ln = none
      ∧ (rowPass1Child (layoutNode 1) 50 100 fixedFlexChild).ccw = 10
      ∧ (rowPass1Child (layoutNode 1) 50 100 fixedFlexChild).mcw = 10
      ∧ (rowPass1Child (layoutNode 1) 50 100 fixedFlexChild).dflex = 1
      ∧ (rowPass1Child (layoutNode 1) 50 100 fixedFlexChild).dminflex
          = 2 + 10 + 3) := by
  intro h
  have hd : (rowPass1Child (layoutNode 1) 50 100 fixedFlexChild).dflex = 0 := by
    norm_num [rowPass1Child, fixedFlexChild]
  rw [hd] at h
  exact absurd h.2.2.2.1 (by norm_num)

/-- Claim C3 amended: in row pass 1 it is the child with no explicit
width whose intrinsic width is a *flexible-wrapped* lower bound `v` and
whose flex is positive that is not laid out in pass 1: its sizing is
deferred to pass 2, `v` is used as both the provisional content and
min-content estimate, `flex_total` is increased by `child.flex`, and
`min_flex` by `margin_left + v + margin_right`; pass 2 then lays it out
with allocation `max(margin_left + v + margin_right, quantum * flex)`
and `use_all_width = True`. -/
theorem C3_amended_flexible_intrinsic_deferred (lf : LayoutFn)
    (ah rw q : ℚ) (c : Node) (v : ℚ)
    (hw : c.style.width = none) (hi : c.intrinsic.width = .atLeast v)
    (hf : 0 < c.style.flex) :
    rowPass1Child lf ah rw c
      = ⟨none, v, v, c.style.flex,
          (c.style.margin_left : ℚ) + v + c.style.margin_right⟩
    ∧ (rowPass2Child lf ah q c (rowPass1Child lf ah rw c)).1
      = lf c
          (if q * c.style.flex
              > (c.style.margin_left : ℚ) + v + c.style.margin_right
            then q * c.style.flex
            else (c.style.margin_left : ℚ) + v + c.style.margin_right)
          ah true (c.style.direction == .row) := by
  constructor
  · simp [rowPass1Child, hw, hi, hf.ne']
  · simp [rowPass1Child, rowPass2Child, hw, hi, hf.ne']

/-- Witness for the amended C3 at a concrete child: flexible intrinsic
10, flex 1, margins 2/3 — deferred with `flex_total` contribution 1 and
`min_flex` contribution 15. -/
theorem C3_amended_witness :
    rowPass1Child (layoutNode 0) 50 100 flexibleFlexChild
      = ⟨none, 10, 10, 1, 15⟩ := by
  have h := (C3_amended_flexible_intrinsic_deferred (layoutNode 0) 50 100 20
    flexibleFlexChild 10 rfl rfl (by norm_num [flexibleFlexChild])).1
  rw [h]
  norm_num [flexibleFlexChild]

/-- Counterexample to C4: a child with a flexible-wrapped intrinsic
width and flex 1 is *not* laid out in pass 1 at all (it is deferred),
contradicting the claim that it is laid out immediately with
`remaining_width` as its allocation. -/
theorem C4_counterexample :
    ¬ ((rowPass1Child (layoutNode 1) 50 100 flexibleFlexChild).ln
      = some (layoutNode 1 flexibleFlexChild 100 50 false
          (flexibleFlexChild.style.direction == .row))) := by
  have h : (rowPass1Child (layoutNode 1) 50 100 flexibleFlexChild).ln
      = none := by
    norm_num [rowPass1Child, flexibleFlexChild]
  simp [h]

/-- Claim C4 amended: it is the child with no explicit width whose
intrinsic width is a *fixed (non-flexible) numeric* value that is laid
out immediately in pass 1 with `remaining_width` as its allocation
(non-greedy), its content and min-content contributions both equal to
the resulting `content_width`, and that is never re-laid-out in pass 2
regardless of its flex weight. -/
theorem C4_amended_fixed_intrinsic_immediate (lf : LayoutFn)
    (ah rw q : ℚ) (c : Node) (v : ℚ)
    (hw : c.style.width = none) (hi : c.intrinsic.width = .fixed v) :
    rowPass1Child lf ah rw c
      = ⟨some (lf c rw ah false (c.style.direction == .row)),
          (lf c rw ah false (c.style.direction == .row)).content_width,
          (lf c rw ah false (c.style.direction == .row)).content_width,
          0, 0⟩
    ∧ rowPass2Child lf ah q c (rowPass1Child lf ah rw c)
      = (lf c rw ah false (c.style.direction == .row), 0, 0) := by
  constructor
  · simp [rowPass1Child, hw, hi]
  · by_cases hf : c.style.flex = 0 <;>
      simp [rowPass1Child, rowPass2Child, hw, hi, hf]

/-- Witness for the amended C4 at a concrete child: fixed intrinsic 10
with flex 1 — pass 2 leaves the pass-1 layout untouched and adjusts
nothing, despite the positive flex weight. -/
theorem C4_amended_witness :
    rowPass2Child (layoutNode 0) 50 7 fixedFlexChild
        (rowPass1Child (layoutNode 0) 50 100 fixedFlexChild)
      = (layoutNode 0 fixedFlexChild 100 50 false true, 0, 0) := by
  have h := (C4_amended_fixed_intrinsic_immediate (layoutNode 0) 50 100 7
    fixedFlexChild 10 rfl rfl).2
  rw [h]
  norm_num [fixedFlexChild]

/-! ## Claim C6: RTL mirroring of horizontal positions -/

/-- A margin-free leaf of explicit width `w`. -/
def fixedLeaf (w : ℤ) : Node :=
  Node.mk ⟨some w, none, .row, 0, 0, 0, 0, 0, none, .ltr⟩ ⟨.absent, .absent⟩
    Box.zero .nil

/-- A row of content width 30 (explicit) over two margin-free children
of explicit widths 10 and 20, with the given text direction. -/
def mirrorRow (td : TextDirection) : Node :=
  Node.mk ⟨some 30, none, .row, 0, 0, 0, 0, 0, none, td⟩ ⟨.absent, .absent⟩
    Box.zero (.cons (fixedLeaf 10) (.cons (fixedLeaf 20) .nil))

/-- Claim C6: in a row of content width 30 with children of explicit
widths 10 and 20 and no margins, LTR places them at content_left 0 and
10, while RTL places them at content_left 20 and 0. -/
theorem C6_rtl_mirroring :
    (layout (mirrorRow .ltr) 100 50).children.map LNode.content_left = [0, 10]
    ∧ (layout (mirrorRow .rtl) 100 50).children.map LNode.content_left
        = [20, 0] := by
  constructor
  · norm_num [layout, layoutNode, availMin, nsize, nsizeList, mirrorRow,
      fixedLeaf,
      NodeList.toList, layoutRowChildren, rowPass1, rowPass1Child, rowQuantum, rowOverflowStep,
      rowPass2, rowPass2Child, rowPass3, rowPass4, rowPass4Child, pyInt,
      LNode.content_width, LNode.content_height, LNode.min_content_width,
      LNode.content_left, LNode.min_content_height, LNode.setLeft,
      LNode.setTop, LNode.box, LNode.children, List.foldl, List.map]
  · norm_num [layout, layoutNode, availMin, nsize, nsizeList, mirrorRow,
      fixedLeaf,
      NodeList.toList, layoutRowChildren, rowPass1, rowPass1Child, rowQuantum, rowOverflowStep,
      rowPass2, rowPass2Child, rowPass3, rowPass4, rowPass4Child, pyInt,
      LNode.content_width, LNode.content_height, LNode.min_content_width,
      LNode.content_left, LNode.min_content_height, LNode.setLeft,
      LNode.setTop, LNode.box, LNode.children, List.foldl, List.map]

/-! ## Correspondence between children and their computed layouts

A generic induction skeleton: any property `R child childLayout` that
is granted by the child-layout procedure and preserved by position
assignment holds of every final child layout produced by the row and
column procedures. -/

theorem forall₂_comp_of {α β γ : Type _} {R : α → β → Prop} {S : β → γ → Prop}
    {T : α → γ → Prop} (h : ∀ a b c, R a b → S b c → T a c) :
    ∀ {l₁ : List α} {l₂ : List β} {l₃ : List γ},
      List.Forall₂ R l₁ l₂ → List.Forall₂ S l₂ l₃ → List.Forall₂ T l₁ l₃ := by
  intro l₁ l₂ l₃ h12
  induction h12 generalizing l₃ with
  | nil =>
    intro h23
    cases h23
    exact .nil
  | cons hab hrest ih =>
    intro h23
    cases h23 with
    | cons hbc hrest' => exact .cons (h _ _ _ hab hbc) (ih hrest')

theorem forall₂_and_mem {α β : Type _} {R : α → β → Prop} {Φ : α → Prop} :
    ∀ {l₁ : List α} {l₂ : List β}, List.Forall₂ R l₁ l₂ →
      (∀ a ∈ l₁, Φ a) → List.Forall₂ (fun a b => Φ a ∧ R a b) l₁ l₂ := by
  intro l₁ l₂ h
  induction h with
  | nil => exact fun _ => .nil
  | cons hab hrest ih =>
    intro hmem
    exact .cons ⟨hmem _ (List.mem_cons_self _ _), hab⟩
      (ih fun a ha => hmem a (List.mem_cons_of_mem _ ha))

/-- The pass-1 loop pairs each child, in order, with a `rowPass1Child`
outcome for some remaining width. -/
theorem rowPass1_pairs (lf : LayoutFn) (ah : ℚ) :
    ∀ (cs : List Node) (st : RowSt),
      List.Forall₂
        (fun c (cp : Node × RowP1) =>
          cp.1 = c ∧ ∃ rw, cp.2 = rowPass1Child lf ah rw c)
        cs (rowPass1 lf ah st cs).2
  | [], _ => .nil
  | c :: cs, st => by
    simp only [rowPass1]
    exact .cons ⟨rfl, st.remaining_width, rfl⟩ (rowPass1_pairs lf ah cs _)

/-- The pass-2 loop maps each pass-1 pair to its `rowPass2Child`
layout. -/
theorem rowPass2_pairs (lf : LayoutFn) (ah q : ℚ) :
    ∀ prs : List (Node × RowP1),
      List.Forall₂
        (fun (cp : Node × RowP1) (cl : Node × LNode) =>
          cl.1 = cp.1 ∧ cl.2 = (rowPass2Child lf ah q cp.1 cp.2).1)
        prs (rowPass2 lf ah q prs).1
  | [] => .nil
  | (c, p) :: rest => by
    simp only [rowPass2]
    exact .cons ⟨rfl, rfl⟩ (rowPass2_pairs lf ah q rest)

/-- The pass-3 loop only overwrites each child's `content_left`. -/
theorem rowPass3_pairs (rtl : Bool) (w : ℚ) :
    ∀ (prs : List (Node × LNode)) (off h mh : ℚ),
      List.Forall₂
        (fun (cl cl' : Node × LNode) =>
          cl'.1 = cl.1 ∧ ∃ x, cl'.2 = cl.2.setLeft x)
        prs (rowPass3 rtl w off h mh prs).1
  | [], _, _, _ => .nil
  | (c, ln) :: rest, off, h, mh => by
    simp only [rowPass3]
    refine .cons ⟨rfl, ?_⟩ (rowPass3_pairs rtl w rest _ _ _)
    split <;> exact ⟨_, rfl⟩

/-- The pass-4 loop maps each pair to its `rowPass4Child` layout. -/
theorem rowPass4_pairs (ai : Option AlignItems) (h : ℚ) :
    ∀ prs : List (Node × LNode),
      List.Forall₂
        (fun (cl : Node × LNode) ln => ln = rowPass4Child ai h cl.1 cl.2)
        prs (rowPass4 ai h prs)
  | [] => .nil
  | (c, ln) :: rest => .cons rfl (rowPass4_pairs ai h rest)

/-- `rowPass4Child` only overwrites the child's `content_top`. -/
theorem rowPass4Child_setTop (ai : Option AlignItems) (h : ℚ) (c : Node)
    (ln : LNode) : ∃ x, rowPass4Child ai h c ln = ln.setTop x := by
  unfold rowPass4Child
  rcases ai with _ | ⟨_ | _ | _⟩ <;> exact ⟨_, rfl⟩

/-- Running passes 1 and 2 on one child yields a layout produced by the
child-layout procedure (pass 2 returns the pass-1 layout in the
already-laid-out branches, and lays the child out itself in the
deferred branches; the stale default is never reached). -/
theorem rowChild_result {R : Node → LNode → Prop} {lf : LayoutFn} {c : Node}
    (hc : ∀ aw ah uw uh, R c (lf c aw ah uw uh)) (ah rw q : ℚ) :
    R c (rowPass2Child lf ah q c (rowPass1Child lf ah rw c)).1 := by
  rcases hw : c.style.width with _ | w
  · rcases hi : c.intrinsic.width with _ | v | v <;>
      by_cases hf : c.style.flex = 0 <;>
      simp [rowPass1Child, rowPass2Child, hw, hi, hf] <;>
      exact hc _ _ _ _
  · simp [rowPass1Child, rowPass2Child, hw]
    exact hc _ _ _ _

/-- Every final child layout produced by `_layout_row_children`
satisfies any property granted by the child-layout procedure and
preserved by position assignment; the layouts are in one-to-one ordered
correspondence with the children. -/
theorem rowPasses_rel {R : Node → LNode → Prop}
    (hL : ∀ c l x, R c l → R c (l.setLeft x))
    (hT : ∀ c l x, R c l → R c (l.setTop x))
    (lf : LayoutFn) (ah q w hh : ℚ) (rtl : Bool) (ai : Option AlignItems)
    (st : RowSt) (off h0 mh0 : ℚ) (cs : List Node)
    (H : ∀ c ∈ cs, ∀ aw' ah' uw' uh', R c (lf c aw' ah' uw' uh')) :
    List.Forall₂ R cs
      (rowPass4 ai hh
        (rowPass3 rtl w off h0 mh0
          (rowPass2 lf ah q (rowPass1 lf ah st cs).2).1).1) := by
  have f1 := forall₂_and_mem (rowPass1_pairs lf ah cs st) H
  have f2 := rowPass2_pairs lf ah q (rowPass1 lf ah st cs).2
  have f12 := forall₂_comp_of
    (T := fun c (cl : Node × LNode) => cl.1 = c ∧ R c cl.2)
    (fun c cp cl hc hcl => by
      obtain ⟨hΦ, hcp1, rw', hcp2⟩ := hc
      obtain ⟨hcl1, hcl2⟩ := hcl
      refine ⟨hcl1.trans hcp1, ?_⟩
      rw [hcl2, hcp1, hcp2]
      exact rowChild_result hΦ ah rw' _)
    f1 f2
  have f3 := rowPass3_pairs rtl w
    (rowPass2 lf ah q (rowPass1 lf ah st cs).2).1 off h0 mh0
  have f123 := forall₂_comp_of
    (T := fun c (cl : Node × LNode) => cl.1 = c ∧ R c cl.2)
    (fun c cl cl' hc hcl => by
      obtain ⟨hcl1, hR⟩ := hc
      obtain ⟨hcl'1, x, hx⟩ := hcl
      refine ⟨hcl'1.trans hcl1, ?_⟩
      rw [hx]
      exact hL _ _ _ hR)
    f12 f3
  have f4 := rowPass4_pairs ai hh
    (rowPass3 rtl w off h0 mh0
      (rowPass2 lf ah q (rowPass1 lf ah st cs).2).1).1
  exact forall₂_comp_of
    (T := R)
    (fun c cl ln hc hln => by
      obtain ⟨hcl1, hR⟩ := hc
      obtain ⟨x, hx⟩ := rowPass4Child_setTop ai hh cl.1 cl.2
      rw [hln, hx]
      exact hT _ _ _ (hcl1 ▸ hR))
    f123 f4

/-- Every final child layout produced by `_layout_row_children`
satisfies any property granted by the child-layout procedure and
preserved by position assignment; the layouts are in one-to-one ordered
correspondence with the children. -/
theorem layoutRowChildren_rel {R : Node → LNode → Prop}
    (hL : ∀ c l x, R c l → R c (l.setLeft x))
    (hT : ∀ c l x, R c l → R c (l.setTop x))
    (lf : LayoutFn) (s : Style) (children : List Node) (aw ah : ℚ)
    (uw uh : Bool)
    (H : ∀ c ∈ children, ∀ aw' ah' uw' uh', R c (lf c aw' ah' uw' uh')) :
    List.Forall₂ R children
      (layoutRowChildren lf s children aw ah uw uh).1 := by
  simp only [layoutRowChildren]
  exact rowPasses_rel hL hT lf ah _ _ _ _ _ _ _ _ _ children H

theorem colPass1_pairs (lf : LayoutFn) (aw : ℚ) :
    ∀ (cs : List Node) (st : ColSt),
      List.Forall₂
        (fun c (cp : Node × ColP1) =>
          cp.1 = c ∧ ∃ rh, cp.2 = colPass1Child lf aw rh c)
        cs (colPass1 lf aw st cs).2
  | [], _ => .nil
  | c :: cs, st => by
    simp only [colPass1]
    exact .cons ⟨rfl, st.remaining_height, rfl⟩ (colPass1_pairs lf aw cs _)

theorem colPass2_pairs (lf : LayoutFn) (aw q : ℚ) :
    ∀ prs : List (Node × ColP1),
      List.Forall₂
        (fun (cp : Node × ColP1) (cl : Node × LNode) =>
          cl.1 = cp.1 ∧ cl.2 = (colPass2Child lf aw q cp.1 cp.2).1)
        prs (colPass2 lf aw q prs).1
  | [] => .nil
  | (c, p) :: rest => by
    simp only [colPass2]
    exact .cons ⟨rfl, rfl⟩ (colPass2_pairs lf aw q rest)

/-- The column pass-3 loop only overwrites each child's
`content_top`. -/
theorem colPass3_pairs :
    ∀ (prs : List (Node × LNode)) (off w mw : ℚ),
      List.Forall₂
        (fun (cl cl' : Node × LNode) =>
          cl'.1 = cl.1 ∧ ∃ x, cl'.2 = cl.2.setTop x)
        prs (colPass3 off w mw prs).1
  | [], _, _, _ => .nil
  | (c, ln) :: rest, off, w, mw => by
    simp only [colPass3]
    exact .cons ⟨rfl, _, rfl⟩ (colPass3_pairs rest _ _ _)

theorem colPass4_pairs (td : TextDirection) (ai : Option AlignItems)
    (w : ℚ) :
    ∀ prs : List (Node × LNode),
      List.Forall₂
        (fun (cl : Node × LNode) ln => ln = colPass4Child td ai w cl.1 cl.2)
        prs (colPass4 td ai w prs)
  | [] => .nil
  | (c, ln) :: rest => .cons rfl (colPass4_pairs td ai w rest)

/-- `colPass4Child` only overwrites the child's `content_left`. -/
theorem colPass4Child_setLeft (td : TextDirection) (ai : Option AlignItems)
    (w : ℚ) (c : Node) (ln : LNode) :
    ∃ x, colPass4Child td ai w c ln = ln.setLeft x := by
  unfold colPass4Child
  rcases td with _ | _ <;> rcases ai with _ | ⟨_ | _ | _⟩ <;> exact ⟨_, rfl⟩

/-- Column mirror of `rowChild_result`. -/
theorem colChild_result {R : Node → LNode → Prop} {lf : LayoutFn} {c : Node}
    (hc : ∀ aw ah uw uh, R c (lf c aw ah uw uh)) (aw rh q : ℚ) :
    R c (colPass2Child lf aw q c (colPass1Child lf aw rh c)).1 := by
  rcases hw : c.style.height with _ | w
  · rcases hi : c.intrinsic.height with _ | v | v <;>
      by_cases hf : c.style.flex = 0 <;>
      simp [colPass1Child, colPass2Child, hw, hi, hf] <;>
      exact hc _ _ _ _
  · simp [colPass1Child, colPass2Child, hw]
    exact hc _ _ _ _

theorem colPasses_rel {R : Node → LNode → Prop}
    (hL : ∀ c l x, R c l → R c (l.setLeft x))
    (hT : ∀ c l x, R c l → R c (l.setTop x))
    (lf : LayoutFn) (aw q ww : ℚ) (td : TextDirection)
    (ai : Option AlignItems) (st : ColSt) (off w0 mw0 : ℚ) (cs : List Node)
    (H : ∀ c ∈ cs, ∀ aw' ah' uw' uh', R c (lf c aw' ah' uw' uh')) :
    List.Forall₂ R cs
      (colPass4 td ai ww
        (colPass3 off w0 mw0
          (colPass2 lf aw q (colPass1 lf aw st cs).2).1).1) := by
  have f1 := forall₂_and_mem (colPass1_pairs lf aw cs st) H
  have f2 := colPass2_pairs lf aw q (colPass1 lf aw st cs).2
  have f12 := forall₂_comp_of
    (T := fun c (cl : Node × LNode) => cl.1 = c ∧ R c cl.2)
    (fun c cp cl hc hcl => by
      obtain ⟨hΦ, hcp1, rh', hcp2⟩ := hc
      obtain ⟨hcl1, hcl2⟩ := hcl
      refine ⟨hcl1.trans hcp1, ?_⟩
      rw [hcl2, hcp1, hcp2]
      exact colChild_result hΦ aw rh' _)
    f1 f2
  have f3 := colPass3_pairs
    (colPass2 lf aw q (colPass1 lf aw st cs).2).1 off w0 mw0
  have f123 := forall₂_comp_of
    (T := fun c (cl : Node × LNode) => cl.1 = c ∧ R c cl.2)
    (fun c cl cl' hc hcl => by
      obtain ⟨hcl1, hR⟩ := hc
      obtain ⟨hcl'1, x, hx⟩ := hcl
      refine ⟨hcl'1.trans hcl1, ?_⟩
      rw [hx]
      exact hT _ _ _ hR)
    f12 f3
  have f4 := colPass4_pairs td ai ww
    (colPass3 off w0 mw0
      (colPass2 lf aw q (colPass1 lf aw st cs).2).1).1
  exact forall₂_comp_of
    (T := R)
    (fun c cl ln hc hln => by
      obtain ⟨hcl1, hR⟩ := hc
      obtain ⟨x, hx⟩ := colPass4Child_setLeft td ai ww cl.1 cl.2
      rw [hln, hx]
      exact hL _ _ _ (hcl1 ▸ hR))
    f123 f4

/-- Column mirror of `layoutRowChildren_rel`. -/
theorem layoutColumnChildren_rel {R : Node → LNode → Prop}
    (hL : ∀ c l x, R c l → R c (l.setLeft x))
    (hT : ∀ c l x, R c l → R c (l.setTop x))
    (lf : LayoutFn) (s : Style) (children : List Node) (aw ah : ℚ)
    (uw uh : Bool)
    (H : ∀ c ∈ children, ∀ aw' ah' uw' uh', R c (lf c aw' ah' uw' uh')) :
    List.Forall₂ R children
      (layoutColumnChildren lf s children aw ah uw uh).1 := by
  simp only [layoutColumnChildren]
  exact colPasses_rel hL hT lf aw _ _ _ _ _ _ _ _ children H

/-! ## Claim C1: explicit sizes dominate -/

/-- Every node of the tree is strictly positive in size. -/
theorem nsize_pos (n : Node) : 0 < nsize n := by
  cases n
  simp [nsize]

/-- A child contributes its full size to `nsizeList`. -/
theorem nsize_le_of_mem : ∀ {cs : NodeList} {c : Node},
    c ∈ cs.toList → nsize c ≤ nsizeList cs
  | .nil, c, hc => by simp [NodeList.toList] at hc
  | .cons c' cs', c, hc => by
    rcases List.mem_cons.mp hc with h | h
    · subst h
      simp [nsizeList]
    · calc nsize c ≤ nsizeList cs' := nsize_le_of_mem h
        _ ≤ nsizeList (NodeList.cons c' cs') := by
          simp [nsizeList]

/-- Explicit-size dominance, as a property of every node of a layout
tree: wherever the style sets `width` (resp. `height`), the computed
`content_width` and `min_content_width` (resp. heights) equal it, and
the children's layouts correspond one-to-one to the children. -/
inductive SizeHonored : Node → LNode → Prop
  | mk {s : Style} {i : IntrinsicSize} {pr : Box} {cs : NodeList} {b : Box}
      {ls : List LNode} :
      (∀ W : ℤ, s.width = some W →
        b.content_width = (W : ℚ) ∧ b.min_content_width = (W : ℚ)) →
      (∀ Hh : ℤ, s.height = some Hh →
        b.content_height = (Hh : ℚ) ∧ b.min_content_height = (Hh : ℚ)) →
      List.Forall₂ SizeHonored cs.toList ls →
      SizeHonored (.mk s i pr cs) (.mk b ls)

theorem SizeHonored.setLeft_pres {c : Node} {l : LNode} (h : SizeHonored c l)
    (x : ℚ) : SizeHonored c (l.setLeft x) := by
  cases h with
  | mk hw hh hcs => exact .mk hw hh hcs

theorem SizeHonored.setTop_pres {c : Node} {l : LNode} (h : SizeHonored c l)
    (x : ℚ) : SizeHonored c (l.setTop x) := by
  cases h with
  | mk hw hh hcs => exact .mk hw hh hcs

/-- Main induction for C1: `_layout_node` honors explicit sizes at
every node it lays out, whatever the arguments. -/
theorem layoutNode_sizeHonored :
    ∀ (fuel : Nat) (n : Node) (aw ah : ℚ) (uw uh : Bool),
      nsize n ≤ fuel → SizeHonored n (layoutNode fuel n aw ah uw uh) := by
  intro fuel
  induction fuel with
  | zero =>
    intro n aw ah uw uh hle
    exact absurd (lt_of_lt_of_le (nsize_pos n) hle) (by simp)
  | succ fuel ih =>
    rintro ⟨s, i, pr, cs⟩ aw ah uw uh hle
    have hcs : ∀ c ∈ cs.toList, ∀ aw' ah' uw' uh',
        SizeHonored c (layoutNode fuel c aw' ah' uw' uh') := by
      intro c hc aw' ah' uw' uh'
      refine ih c aw' ah' uw' uh' ?_
      have h1 : nsize c ≤ nsizeList cs := nsize_le_of_mem hc
      have h2 : nsizeList cs + 1 ≤ fuel + 1 := by
        simpa [nsize] using hle
      omega
    simp only [layoutNode, Node.style_mk, Node.intrinsic_mk, Node.children_mk]
    refine SizeHonored.mk ?_ ?_ ?_
    · intro W hW
      simp [hW]
    · intro Hh hH
      simp [hH]
    · cases cs with
      | nil => exact .nil
      | cons c cs' =>
        cases hd : s.direction <;> simp only [hd, row_beq_column,
            column_beq_column, Bool.false_eq_true, if_false, if_true]
        · exact layoutRowChildren_rel (fun _ _ _ h => h.setLeft_pres _)
            (fun _ _ _ h => h.setTop_pres _) _ s _ _ _ uw uh hcs
        · exact layoutColumnChildren_rel (fun _ _ _ h => h.setLeft_pres _)
            (fun _ _ _ h => h.setTop_pres _) _ s _ _ _ uw uh hcs

/-- Claim C1: for every node of the tree whose style sets an explicit
width `W`, after `layout` its `content_width` and `min_content_width`
both equal `W`, regardless of its children or intrinsic size;
symmetrically for an explicit height. -/
theorem C1_explicit_size_dominance (n : Node) (vw vh : ℚ) :
    SizeHonored n (layout n vw vh) := by
  have h := layoutNode_sizeHonored (nsize n) n vw vh true true le_rfl
  exact (h.setTop_pres _).setLeft_pres _

/-! ## Claim C2: min-content never exceeds content -/

/-- The C2 invariant, over every node of a layout tree:
`min_content_width ≤ content_width` and
`min_content_height ≤ content_height`. -/
inductive MinLeContent : LNode → Prop
  | mk {b : Box} {ls : List LNode} :
      b.min_content_width ≤ b.content_width →
      b.min_content_height ≤ b.content_height →
      (∀ l ∈ ls, MinLeContent l) →
      MinLeContent (.mk b ls)

theorem MinLeContent.width_le {l : LNode} (h : MinLeContent l) :
    l.min_content_width ≤ l.content_width := by
  cases h with
  | mk hw _ _ => exact hw

theorem MinLeContent.height_le {l : LNode} (h : MinLeContent l) :
    l.min_content_height ≤ l.content_height := by
  cases h with
  | mk _ hh _ => exact hh

theorem MinLeContent.setLeft_minle {l : LNode} (h : MinLeContent l) (x : ℚ) :
    MinLeContent (l.setLeft x) := by
  cases h with
  | mk hw hh hls => exact .mk hw hh hls

theorem MinLeContent.setTop_minle {l : LNode} (h : MinLeContent l) (x : ℚ) :
    MinLeContent (l.setTop x) := by
  cases h with
  | mk hw hh hls => exact .mk hw hh hls

theorem forall₂_mem_right {α β : Type _} {R : α → β → Prop} :
    ∀ {l₁ : List α} {l₂ : List β}, List.Forall₂ R l₁ l₂ →
      ∀ b ∈ l₂, ∃ a ∈ l₁, R a b := by
  intro l₁ l₂ h
  induction h with
  | nil => simp
  | cons hab _ ih =>
    intro b hb
    rcases List.mem_cons.mp hb with h | h
    · exact ⟨_, List.mem_cons_self _ _, h ▸ hab⟩
    · obtain ⟨a, ha, hr⟩ := ih b h
      exact ⟨a, List.mem_cons_of_mem _ ha, hr⟩

/-- Passes 1 and 2 together pair each child with its final layout. -/
theorem rowPass12_rel {R : Node → LNode → Prop} (lf : LayoutFn) (ah q : ℚ)
    (st : RowSt) (cs : List Node)
    (H : ∀ c ∈ cs, ∀ aw' ah' uw' uh', R c (lf c aw' ah' uw' uh')) :
    List.Forall₂ (fun c (cl : Node × LNode) => cl.1 = c ∧ R c cl.2) cs
      (rowPass2 lf ah q (rowPass1 lf ah st cs).2).1 := by
  have f1 := forall₂_and_mem (rowPass1_pairs lf ah cs st) H
  have f2 := rowPass2_pairs lf ah q (rowPass1 lf ah st cs).2
  exact forall₂_comp_of
    (T := fun c (cl : Node × LNode) => cl.1 = c ∧ R c cl.2)
    (fun c cp cl hc hcl => by
      obtain ⟨hΦ, hcp1, rw', hcp2⟩ := hc
      obtain ⟨hcl1, hcl2⟩ := hcl
      refine ⟨hcl1.trans hcp1, ?_⟩
      rw [hcl2, hcp1, hcp2]
      exact rowChild_result hΦ ah rw' _)
    f1 f2

/-- In pass 1, each child's min-content contribution never exceeds its
content contribution. -/
theorem rowPass1Child_mcw_le {lf : LayoutFn} {c : Node}
    (hc : ∀ a b u v, MinLeContent (lf c a b u v)) (ah rw : ℚ) :
    (rowPass1Child lf ah rw c).mcw ≤ (rowPass1Child lf ah rw c).ccw := by
  rcases hw : c.style.width with _ | w
  · rcases hi : c.intrinsic.width with _ | v | v <;>
      by_cases hf : c.style.flex = 0 <;>
      simp [rowPass1Child, hw, hi, hf] <;>
      exact (hc _ _ _ _).width_le
  · simp [rowPass1Child, hw]

/-- The pass-1 running totals keep `min_width ≤ width`. -/
theorem rowPass1_minwidth (lf : LayoutFn) (ah : ℚ) :
    ∀ (cs : List Node) (st : RowSt),
      (∀ c ∈ cs, ∀ a b u v, MinLeContent (lf c a b u v)) →
      st.min_width ≤ st.width →
      (rowPass1 lf ah st cs).1.min_width ≤ (rowPass1 lf ah st cs).1.width
  | [], _, _, hle => hle
  | c :: cs, st, H, hle => by
    simp only [rowPass1]
    refine rowPass1_minwidth lf ah cs _
      (fun c' hc' => H c' (List.mem_cons_of_mem _ hc')) ?_
    have hm := rowPass1Child_mcw_le (H c (List.mem_cons_self _ _)) ah
      st.remaining_width
    have : (c.style.margin_left : ℚ)
          + (rowPass1Child lf ah st.remaining_width c).mcw
          + c.style.margin_right
        ≤ (c.style.margin_left : ℚ)
          + (rowPass1Child lf ah st.remaining_width c).ccw
          + c.style.margin_right := by
      exact add_le_add_right (add_le_add_left hm _) _
    exact add_le_add hle this

/-- In pass 2, the adjustment to `min_width` never exceeds the
adjustment to `width`. -/
theorem rowPass2Child_delta {lf : LayoutFn} {c : Node}
    (hc : ∀ a b u v, MinLeContent (lf c a b u v)) (ah q : ℚ) (p : RowP1) :
    (rowPass2Child lf ah q c p).2.2 ≤ (rowPass2Child lf ah q c p).2.1 := by
  rcases hw : c.style.width with _ | w
  · by_cases hf : c.style.flex = 0
    · simp [rowPass2Child, hw, hf]
    · rcases hi : c.intrinsic.width with _ | v | v <;>
        simp [rowPass2Child, hw, hf, hi] <;>
        exact (hc _ _ _ _).width_le
  · simp [rowPass2Child, hw]

theorem rowPass2_delta (lf : LayoutFn) (ah q : ℚ) :
    ∀ prs : List (Node × RowP1),
      (∀ cp ∈ prs, ∀ a b u v, MinLeContent (lf cp.1 a b u v)) →
      (rowPass2 lf ah q prs).2.2 ≤ (rowPass2 lf ah q prs).2.1
  | [], _ => le_refl 0
  | (c, p) :: rest, H => by
    simp only [rowPass2]
    exact add_le_add
      (rowPass2Child_delta (H (c, p) (List.mem_cons_self _ _)) ah q p)
      (rowPass2_delta lf ah q rest
        (fun cp hcp => H cp (List.mem_cons_of_mem _ hcp)))

/-- The pass-3 accumulators keep `min_height ≤ height`. -/
theorem rowPass3_minheight (rtl : Bool) (w : ℚ) :
    ∀ (prs : List (Node × LNode)) (off h mh : ℚ),
      (∀ cp ∈ prs, MinLeContent cp.2) → mh ≤ h →
      (rowPass3 rtl w off h mh prs).2.2 ≤ (rowPass3 rtl w off h mh prs).2.1
  | [], _, _, _, _, hle => hle
  | (c, ln) :: rest, off, h, mh, H, hle => by
    simp only [rowPass3]
    refine rowPass3_minheight rtl w rest _ _ _
      (fun cp hcp => H cp (List.mem_cons_of_mem _ hcp)) ?_
    refine max_le_max hle ?_
    have := (H (c, ln) (List.mem_cons_self _ _)).height_le
    exact add_le_add_right (add_le_add_left this _) _

/-- Stretching to the full available size (`use_all_*`) can only grow a
dimension. -/
theorem le_ite_max {P : Prop} [Decidable P] {a b : ℚ} (d : ℚ) (h : a ≤ b) :
    a ≤ if P then max b d else b := by
  split
  · exact h.trans (le_max_left _ _)
  · exact h

/-- `_layout_row_children` returns `min_width ≤ width` and
`min_height ≤ height`. -/
theorem layoutRowChildren_minle (lf : LayoutFn) (s : Style) (cs : List Node)
    (aw ah : ℚ) (uw uh : Bool)
    (H : ∀ c ∈ cs, ∀ a b u v, MinLeContent (lf c a b u v)) :
    (layoutRowChildren lf s cs aw ah uw uh).2.1
        ≤ (layoutRowChildren lf s cs aw ah uw uh).2.2.1
    ∧ (layoutRowChildren lf s cs aw ah uw uh).2.2.2.1
        ≤ (layoutRowChildren lf s cs aw ah uw uh).2.2.2.2 := by
  simp only [layoutRowChildren]
  have hpairs : ∀ cp ∈ (rowPass2 lf ah
      (rowQuantum cs (rowPass1 lf ah ⟨0, 0, 0, 0, aw⟩ cs).1)
      (rowPass1 lf ah ⟨0, 0, 0, 0, aw⟩ cs).2).1, MinLeContent cp.2 := by
    intro cp hcp
    obtain ⟨c, _, _, hR⟩ := forall₂_mem_right
      (rowPass12_rel (R := fun _ l => MinLeContent l) lf ah _ _ cs H) cp hcp
    exact hR
  have hp1mem : ∀ cp ∈ (rowPass1 lf ah
      (⟨0, 0, 0, 0, aw⟩ : RowSt) cs).2, ∀ a b u v,
      MinLeContent (lf cp.1 a b u v) := by
    intro cp hcp
    obtain ⟨c, hc, hcp1, _⟩ := forall₂_mem_right
      (rowPass1_pairs lf ah cs ⟨0, 0, 0, 0, aw⟩) cp hcp
    exact hcp1 ▸ H c hc
  constructor
  · have h1 := rowPass1_minwidth lf ah cs ⟨0, 0, 0, 0, aw⟩ H le_rfl
    have h2 := rowPass2_delta lf ah
      (rowQuantum cs (rowPass1 lf ah ⟨0, 0, 0, 0, aw⟩ cs).1)
      (rowPass1 lf ah ⟨0, 0, 0, 0, aw⟩ cs).2 hp1mem
    exact le_ite_max _ (add_le_add h1 h2)
  · exact le_ite_max _ (rowPass3_minheight _ _ _ _ _ _ hpairs le_rfl)

/-- Column mirror of `rowPass12_rel`. -/
theorem colPass12_rel {R : Node → LNode → Prop} (lf : LayoutFn) (aw q : ℚ)
    (st : ColSt) (cs : List Node)
    (H : ∀ c ∈ cs, ∀ aw' ah' uw' uh', R c (lf c aw' ah' uw' uh')) :
    List.Forall₂ (fun c (cl : Node × LNode) => cl.1 = c ∧ R c cl.2) cs
      (colPass2 lf aw q (colPass1 lf aw st cs).2).1 := by
  have f1 := forall₂_and_mem (colPass1_pairs lf aw cs st) H
  have f2 := colPass2_pairs lf aw q (colPass1 lf aw st cs).2
  exact forall₂_comp_of
    (T := fun c (cl : Node × LNode) => cl.1 = c ∧ R c cl.2)
    (fun c cp cl hc hcl => by
      obtain ⟨hΦ, hcp1, rh', hcp2⟩ := hc
      obtain ⟨hcl1, hcl2⟩ := hcl
      refine ⟨hcl1.trans hcp1, ?_⟩
      rw [hcl2, hcp1, hcp2]
      exact colChild_result hΦ aw rh' _)
    f1 f2

theorem colPass1Child_mch_le {lf : LayoutFn} {c : Node}
    (hc : ∀ a b u v, MinLeContent (lf c a b u v)) (aw rh : ℚ) :
    (colPass1Child lf aw rh c).mch ≤ (colPass1Child lf aw rh c).cch := by
  rcases hw : c.style.height with _ | w
  · rcases hi : c.intrinsic.height with _ | v | v <;>
      by_cases hf : c.style.flex = 0 <;>
      simp [colPass1Child, hw, hi, hf] <;>
      exact (hc _ _ _ _).height_le
  · simp [colPass1Child, hw]

theorem colPass1_minheight (lf : LayoutFn) (aw : ℚ) :
    ∀ (cs : List Node) (st : ColSt),
      (∀ c ∈ cs, ∀ a b u v, MinLeContent (lf c a b u v)) →
      st.min_height ≤ st.height →
      (colPass1 lf aw st cs).1.min_height ≤ (colPass1 lf aw st cs).1.height
  | [], _, _, hle => hle
  | c :: cs, st, H, hle => by
    simp only [colPass1]
    refine colPass1_minheight lf aw cs _
      (fun c' hc' => H c' (List.mem_cons_of_mem _ hc')) ?_
    have hm := colPass1Child_mch_le (H c (List.mem_cons_self _ _)) aw
      st.remaining_height
    have : (c.style.margin_top : ℚ)
          + (colPass1Child lf aw st.remaining_height c).mch
          + c.style.margin_bottom
        ≤ (c.style.margin_top : ℚ)
          + (colPass1Child lf aw st.remaining_height c).cch
          + c.style.margin_bottom := by
      exact add_le_add_right (add_le_add_left hm _) _
    exact add_le_add hle this

theorem colPass2Child_delta {lf : LayoutFn} {c : Node}
    (hc : ∀ a b u v, MinLeContent (lf c a b u v)) (aw q : ℚ) (p : ColP1) :
    (colPass2Child lf aw q c p).2.2 ≤ (colPass2Child lf aw q c p).2.1 := by
  rcases hw : c.style.height with _ | w
  · by_cases hf : c.style.flex = 0
    · simp [colPass2Child, hw, hf]
    · rcases hi : c.intrinsic.height with _ | v | v <;>
        simp [colPass2Child, hw, hf, hi] <;>
        exact (hc _ _ _ _).height_le
  · simp [colPass2Child, hw]

theorem colPass2_delta (lf : LayoutFn) (aw q : ℚ) :
    ∀ prs : List (Node × ColP1),
      (∀ cp ∈ prs, ∀ a b u v, MinLeContent (lf cp.1 a b u v)) →
      (colPass2 lf aw q prs).2.2 ≤ (colPass2 lf aw q prs).2.1
  | [], _ => le_refl 0
  | (c, p) :: rest, H => by
    simp only [colPass2]
    exact add_le_add
      (colPass2Child_delta (H (c, p) (List.mem_cons_self _ _)) aw q p)
      (colPass2_delta lf aw q rest
        (fun cp hcp => H cp (List.mem_cons_of_mem _ hcp)))

theorem colPass3_minwidth :
    ∀ (prs : List (Node × LNode)) (off w mw : ℚ),
      (∀ cp ∈ prs, MinLeContent cp.2) → mw ≤ w →
      (colPass3 off w mw prs).2.2 ≤ (colPass3 off w mw prs).2.1
  | [], _, _, _, _, hle => hle
  | (c, ln) :: rest, off, w, mw, H, hle => by
    simp only [colPass3]
    refine colPass3_minwidth rest _ _ _
      (fun cp hcp => H cp (List.mem_cons_of_mem _ hcp)) ?_
    refine max_le_max hle ?_
    have hcw := (H (c, ln) (List.mem_cons_self _ _)).width_le
    calc (c.style.margin_left : ℚ) + ln.min_content_width
          + c.style.margin_right
        ≤ (c.style.margin_left : ℚ) + ln.content_width
          + c.style.margin_right := by
          exact add_le_add_right (add_le_add_left hcw _) _
      _ = ln.content_width + c.style.margin_left + c.style.margin_right := by
          ring

/-- `_layout_column_children` returns `min_width ≤ width` and
`min_height ≤ height`. -/
theorem layoutColumnChildren_minle (lf : LayoutFn) (s : Style)
    (cs : List Node) (aw ah : ℚ) (uw uh : Bool)
    (H : ∀ c ∈ cs, ∀ a b u v, MinLeContent (lf c a b u v)) :
    (layoutColumnChildren lf s cs aw ah uw uh).2.1
        ≤ (layoutColumnChildren lf s cs aw ah uw uh).2.2.1
    ∧ (layoutColumnChildren lf s cs aw ah uw uh).2.2.2.1
        ≤ (layoutColumnChildren lf s cs aw ah uw uh).2.2.2.2 := by
  simp only [layoutColumnChildren]
  have hpairs : ∀ cp ∈ (colPass2 lf aw
      (colQuantum cs (colPass1 lf aw ⟨0, 0, 0, 0, ah⟩ cs).1)
      (colPass1 lf aw ⟨0, 0, 0, 0, ah⟩ cs).2).1, MinLeContent cp.2 := by
    intro cp hcp
    obtain ⟨c, _, _, hR⟩ := forall₂_mem_right
      (colPass12_rel (R := fun _ l => MinLeContent l) lf aw _ _ cs H) cp hcp
    exact hR
  have hp1mem : ∀ cp ∈ (colPass1 lf aw
      (⟨0, 0, 0, 0, ah⟩ : ColSt) cs).2, ∀ a b u v,
      MinLeContent (lf cp.1 a b u v) := by
    intro cp hcp
    obtain ⟨c, hc, hcp1, _⟩ := forall₂_mem_right
      (colPass1_pairs lf aw cs ⟨0, 0, 0, 0, ah⟩) cp hcp
    exact hcp1 ▸ H c hc
  constructor
  · exact le_ite_max _ (colPass3_minwidth _ _ _ _ hpairs le_rfl)
  · have h1 := colPass1_minheight lf aw cs ⟨0, 0, 0, 0, ah⟩ H le_rfl
    have h2 := colPass2_delta lf aw
      (colQuantum cs (colPass1 lf aw ⟨0, 0, 0, 0, ah⟩ cs).1)
      (colPass1 lf aw ⟨0, 0, 0, 0, ah⟩ cs).2 hp1mem
    exact le_ite_max _ (add_le_add h1 h2)

/-- Steps 1–2 never produce a minimum above the available size. -/
theorem availMin_snd_le_fst (e : Option ℤ) (i : IntrinsicDim) (a : ℚ)
    (m1 m2 : ℤ) : (availMin e i a m1 m2).2 ≤ (availMin e i a m1 m2).1 := by
  rcases e with _ | w
  · rcases i with _ | v | v <;> simp [availMin]
  · simp [availMin]

/-- Main induction for C2: `_layout_node` establishes
`min_content ≤ content` on both axes at every node it lays out. -/
theorem layoutNode_minle :
    ∀ (fuel : Nat) (n : Node) (aw ah : ℚ) (uw uh : Bool),
      nsize n ≤ fuel → MinLeContent (layoutNode fuel n aw ah uw uh) := by
  intro fuel
  induction fuel with
  | zero =>
    intro n aw ah uw uh hle
    exact absurd (lt_of_lt_of_le (nsize_pos n) hle) (by simp)
  | succ fuel ih =>
    rintro ⟨s, i, pr, cs⟩ aw ah uw uh hle
    have hcs : ∀ c ∈ cs.toList, ∀ aw' ah' uw' uh',
        MinLeContent (layoutNode fuel c aw' ah' uw' uh') := by
      intro c hc aw' ah' uw' uh'
      refine ih c aw' ah' uw' uh' ?_
      have h1 : nsize c ≤ nsizeList cs := nsize_le_of_mem hc
      have h2 : nsizeList cs + 1 ≤ fuel + 1 := by
        simpa [nsize] using hle
      omega
    cases cs with
    | nil =>
      simp only [layoutNode, Node.style_mk, Node.intrinsic_mk,
        Node.children_mk]
      refine MinLeContent.mk ?_ ?_ ?_
      · rcases hsw : s.width with _ | W <;> simp [hsw]
        exact_mod_cast pyInt_mono (availMin_snd_le_fst none i.width aw
          s.margin_left s.margin_right)
      · rcases hsh : s.height with _ | Hh <;> simp [hsh]
        exact_mod_cast pyInt_mono (availMin_snd_le_fst none i.height ah
          s.margin_top s.margin_bottom)
      · simp
    | cons c0 cs' =>
      have hrel : ∀ (r : List LNode × ℚ × ℚ × ℚ × ℚ),
          List.Forall₂ (fun _ l => MinLeContent l)
            (NodeList.cons c0 cs').toList r.1 →
          r.2.1 ≤ r.2.2.1 → r.2.2.2.1 ≤ r.2.2.2.2 →
          MinLeContent (LNode.mk
            ⟨(pyInt (match s.width with
                | some w => (w : ℚ) | none => r.2.2.1) : ℚ),
             (pyInt (match s.height with
                | some h => (h : ℚ) | none => r.2.2.2.2) : ℚ),
             (pyInt (match s.width with
                | some w => (w : ℚ) | none => r.2.1) : ℚ),
             (pyInt (match s.height with
                | some h => (h : ℚ) | none => r.2.2.2.1) : ℚ), 0, 0⟩ r.1) := by
        intro r hf hw hh
        refine MinLeContent.mk ?_ ?_ ?_
        · rcases hsw : s.width with _ | W <;> simp [hsw]
          exact_mod_cast pyInt_mono hw
        · rcases hsh : s.height with _ | Hh <;> simp [hsh]
          exact_mod_cast pyInt_mono hh
        · intro l hl
          obtain ⟨_, _, hR⟩ := forall₂_mem_right hf l hl
          exact hR
      cases hd : s.direction
      · simp only [layoutNode, Node.style_mk, Node.intrinsic_mk,
          Node.children_mk, hd, row_beq_column, Bool.false_eq_true, if_false]
        refine hrel _ ?_ ?_ ?_
        · exact layoutRowChildren_rel (fun _ _ _ h => h.setLeft_minle _)
            (fun _ _ _ h => h.setTop_minle _) _ s _ _ _ uw uh hcs
        · exact (layoutRowChildren_minle _ s _ _ _ uw uh hcs).1
        · exact (layoutRowChildren_minle _ s _ _ _ uw uh hcs).2
      · simp only [layoutNode, Node.style_mk, Node.intrinsic_mk,
          Node.children_mk, hd, column_beq_column, if_true]
        refine hrel _ ?_ ?_ ?_
        · exact layoutColumnChildren_rel (fun _ _ _ h => h.setLeft_minle _)
            (fun _ _ _ h => h.setTop_minle _) _ s _ _ _ uw uh hcs
        · exact (layoutColumnChildren_minle _ s _ _ _ uw uh hcs).1
        · exact (layoutColumnChildren_minle _ s _ _ _ uw uh hcs).2

/-- Claim C2: for every node of the tree, after `layout` completes,
`min_content_width ≤ content_width` and
`min_content_height ≤ content_height` hold in that node's layout
result. -/
theorem C2_min_le_content (n : Node) (vw vh : ℚ) :
    MinLeContent (layout n vw vh) := by
  have h := layoutNode_minle (nsize n) n vw vh true true le_rfl
  exact (h.setTop_minle _).setLeft_minle _

/-! ## Claim C5: flex proportionality -/

/-- A margin-free auto-sized leaf with the given flex weight. -/
def flexLeaf (f : ℚ) : Node :=
  Node.mk ⟨none, none, .row, f, 0, 0, 0, 0, none, .ltr⟩ ⟨.absent, .absent⟩
    Box.zero .nil

/-- A margin-free auto-sized row over two flex children of weights 1
and 3, neither with an intrinsic or explicit size. -/
def flexRow : Node :=
  Node.mk ⟨none, none, .row, 0, 0, 0, 0, 0, none, .ltr⟩ ⟨.absent, .absent⟩
    Box.zero (.cons (flexLeaf 1) (.cons (flexLeaf 3) .nil))

theorem pyInt_div4 (S : ℕ) : pyInt ((S : ℚ) / 4) = ((S / 4 : ℕ) : ℤ) := by
  rw [pyInt_of_nonneg (by positivity)]
  have h : ((S : ℚ) / 4) = ((S : ℤ) : ℚ) / ((4 : ℕ) : ℚ) := by
    push_cast
    ring
  rw [h, Rat.floor_intCast_div_natCast]
  omega

theorem pyInt_div4_mul3 (S : ℕ) :
    pyInt ((S : ℚ) / 4 * 3) = ((3 * S / 4 : ℕ) : ℤ) := by
  rw [pyInt_of_nonneg (by positivity)]
  have h : ((S : ℚ) / 4 * 3) = (((3 * S : ℕ) : ℤ) : ℚ) / ((4 : ℕ) : ℚ) := by
    push_cast
    ring
  rw [h, Rat.floor_intCast_div_natCast]
  omega

/-- The two children's final content widths in `flexRow`, for any
main-axis space `S`: the flex quantum is `S/4` and each child is
allocated `quantum * flex`, truncated to an integer when stored. -/
theorem flexRow_children_widths (S : ℕ) :
    (layout flexRow (S : ℚ) 100).children.map LNode.content_width
      = [(pyInt ((S : ℚ) / 4) : ℚ), (pyInt ((S : ℚ) / 4 * 3) : ℚ)] := by
  by_cases hS : S = 0
  · subst hS
    norm_num [layout, layoutNode, availMin, nsize, nsizeList, flexRow,
      flexLeaf, NodeList.toList, layoutRowChildren, rowPass1, rowPass1Child,
      rowQuantum, rowOverflowStep, rowPass2, rowPass2Child, rowPass3, rowPass4, rowPass4Child,
      pyInt, LNode.content_width, LNode.content_height,
      LNode.min_content_width, LNode.content_left, LNode.min_content_height,
      LNode.setLeft, LNode.setTop, LNode.box, LNode.children, List.foldl,
      List.map]
  · have hS0 : (0 : ℚ) ≤ (S : ℚ) := Nat.cast_nonneg S
    have hmS : max (0 : ℚ) ((S : ℚ)) = (S : ℚ) := max_eq_right hS0
    have hm4 : max (0 : ℚ) ((S : ℚ) / 4) = (S : ℚ) / 4 :=
      max_eq_right (by positivity)
    have hm34 : max (0 : ℚ) ((S : ℚ) / 4 * 3) = (S : ℚ) / 4 * 3 :=
      max_eq_right (by positivity)
    have hm34' : max (0 : ℚ) (3 * ((S : ℚ) / 4)) = 3 * ((S : ℚ) / 4) :=
      max_eq_right (by positivity)
    have hm34'' : max (0 : ℚ) ((3 : ℚ) / 4 * S) = (3 : ℚ) / 4 * S :=
      max_eq_right (by positivity)
    have hqne : ((S : ℚ) / 4) ≠ 0 := by positivity
    norm_num [layout, layoutNode, availMin, nsize, nsizeList, flexRow,
      flexLeaf, NodeList.toList, layoutRowChildren, rowPass1, rowPass1Child,
      rowQuantum, rowOverflowStep, rowPass2, rowPass2Child, rowPass3, rowPass4, rowPass4Child,
      LNode.content_width, LNode.content_height, LNode.min_content_width,
      LNode.content_left, LNode.min_content_height, LNode.setLeft,
      LNode.setTop, LNode.box, LNode.children, List.foldl, List.map,
      hmS, hm4, hm34, hm34', hm34'', hqne]

/-- Claim C5: in a row with two flex children of weights 1 and 3 (no
intrinsic sizes, no explicit sizes, no margins) given main-axis space
`S` with `use_all_width` set, the children receive `quantum * flex`
with `quantum = (remaining_width + min_flex) / flex_total = S/4`:
their content widths are `⌊S/4⌋` and `⌊3S/4⌋`, they sum to `S` up to
integer truncation (the sum is within 1 of `S`), and when `4 ∣ S` the
ratio is exactly 1 : 3 and the sum exactly `S`. -/
theorem C5_flex_proportionality (S : ℕ) :
    ∃ a b : LNode, (layout flexRow (S : ℚ) 100).children = [a, b]
    ∧ a.content_width = ((S / 4 : ℕ) : ℚ)
    ∧ b.content_width = ((3 * S / 4 : ℕ) : ℚ)
    ∧ (S : ℚ) - 1 ≤ a.content_width + b.content_width
    ∧ a.content_width + b.content_width ≤ (S : ℚ)
    ∧ (S % 4 = 0 →
        b.content_width = 3 * a.content_width
        ∧ a.content_width + b.content_width = (S : ℚ)) := by
  have hkey := flexRow_children_widths S
  obtain ⟨a, b, hab, ha, hb⟩ : ∃ a b,
      (layout flexRow (S : ℚ) 100).children = [a, b]
      ∧ a.content_width = (pyInt ((S : ℚ) / 4) : ℚ)
      ∧ b.content_width = (pyInt ((S : ℚ) / 4 * 3) : ℚ) := by
    rcases hch : (layout flexRow (S : ℚ) 100).children
      with _ | ⟨a, _ | ⟨b, _ | ⟨c, t⟩⟩⟩ <;>
      rw [hch] at hkey <;> simp at hkey
    exact ⟨a, b, rfl, hkey.1, hkey.2⟩
  have ha' : a.content_width = ((S / 4 : ℕ) : ℚ) := by
    rw [ha, pyInt_div4]
    exact_mod_cast rfl
  have hb' : b.content_width = ((3 * S / 4 : ℕ) : ℚ) := by
    rw [hb, pyInt_div4_mul3]
    exact_mod_cast rfl
  refine ⟨a, b, hab, ha', hb', ?_, ?_, ?_⟩
  · rw [ha', hb']
    have h1 : S ≤ S / 4 + 3 * S / 4 + 1 := by omega
    have h2 : (S : ℚ) ≤ ((S / 4 : ℕ) : ℚ) + ((3 * S / 4 : ℕ) : ℚ) + 1 := by
      exact_mod_cast Nat.cast_le.mpr h1
    linarith
  · rw [ha', hb']
    have h1 : S / 4 + 3 * S / 4 ≤ S := by omega
    exact_mod_cast Nat.cast_le.mpr h1
  · intro h4
    constructor
    · rw [ha', hb']
      have h1 : 3 * S / 4 = 3 * (S / 4) := by omega
      rw [h1]
      push_cast
      ring
    · rw [ha', hb']
      have h1 : S / 4 + 3 * S / 4 = S := by omega
      exact_mod_cast Nat.cast_inj.mpr h1

/-- Witness for C5 at `S = 8`: the children get widths 2 and 6, in
exact ratio 1 : 3, summing to 8. -/
theorem C5_flex_proportionality_witness :
    ∃ a b : LNode, (layout flexRow (8 : ℚ) 100).children = [a, b]
    ∧ a.content_width = 2 ∧ b.content_width = 6
    ∧ b.content_width = 3 * a.content_width
    ∧ a.content_width + b.content_width = 8 := by
  obtain ⟨a, b, hab, ha, hb, _, _, hmod⟩ := C5_flex_proportionality 8
  obtain ⟨hr, hs⟩ := hmod rfl
  have h8 : ((8 : ℕ) : ℚ) = 8 := by norm_num
  refine ⟨a, b, by exact_mod_cast hab, by rw [ha]; norm_num,
    by rw [hb]; norm_num, hr, by rw [hs]; norm_num⟩

/-! ## Claim C9: idempotence

The engine's only inputs are styles, intrinsic sizes, tree structure
and the viewport; the pre-call contents of the `layout` slots
(`prior`) are never read.  Two trees with the same specification —
in particular, a tree before and after a `layout` call has filled in
its `layout` slots — therefore lay out identically. -/

mutual
/-- Two nodes with identical style, intrinsic size and tree structure;
their pre-call layout slots may differ arbitrarily. -/
inductive SameSpec : Node → Node → Prop
  | mk {s : Style} {i : IntrinsicSize} {p p' : Box} {cs cs' : NodeList} :
      SameSpecList cs cs' → SameSpec (.mk s i p cs) (.mk s i p' cs')

inductive SameSpecList : NodeList → NodeList → Prop
  | nil : SameSpecList .nil .nil
  | cons {c c' : Node} {cs cs' : NodeList} :
      SameSpec c c' → SameSpecList cs cs' →
      SameSpecList (.cons c cs) (.cons c' cs')
end

theorem SameSpec.style_eq {n n' : Node} (h : SameSpec n n') :
    n.style = n'.style := by
  cases h
  rfl

theorem SameSpec.intrinsic_eq {n n' : Node} (h : SameSpec n n') :
    n.intrinsic = n'.intrinsic := by
  cases h
  rfl

mutual
theorem SameSpec.nsize_eq : ∀ {n n' : Node}, SameSpec n n' →
    nsize n = nsize n'
  | _, _, .mk hcs => by
    simp only [nsize, SameSpecList.nsizeList_eq hcs]

theorem SameSpecList.nsizeList_eq : ∀ {cs cs' : NodeList}, SameSpecList cs cs' →
    nsizeList cs = nsizeList cs'
  | _, _, .nil => rfl
  | _, _, .cons hc hcs => by
    simp only [nsizeList, SameSpec.nsize_eq hc, SameSpecList.nsizeList_eq hcs]
end

theorem SameSpecList.forall₂ : ∀ {cs cs' : NodeList}, SameSpecList cs cs' →
    List.Forall₂ SameSpec cs.toList cs'.toList
  | _, _, .nil => .nil
  | _, _, .cons hc hcs => .cons hc (SameSpecList.forall₂ hcs)

mutual
/-- Write a computed layout tree back into the nodes' layout slots —
the state of the node tree after a `layout()` call returns. -/
def writeBack : Node → LNode → Node
  | .mk s i _ cs, .mk b ls => .mk s i b (writeBackList cs ls)

def writeBackList : NodeList → List LNode → NodeList
  | .nil, _ => .nil
  | .cons c cs, [] => .cons c cs
  | .cons c cs, l :: ls => .cons (writeBack c l) (writeBackList cs ls)
end

mutual
theorem SameSpec.refl : ∀ n : Node, SameSpec n n
  | .mk _ _ _ cs => .mk (SameSpecList.reflList cs)

theorem SameSpecList.reflList : ∀ cs : NodeList, SameSpecList cs cs
  | .nil => .nil
  | .cons c cs => .cons (SameSpec.refl c) (SameSpecList.reflList cs)
end

mutual
/-- Writing layout results back changes no specification data. -/
theorem writeBack_sameSpec : ∀ (n : Node) (r : LNode),
    SameSpec (writeBack n r) n
  | .mk _ _ _ cs, .mk _ ls => .mk (writeBackList_sameSpec cs ls)

theorem writeBackList_sameSpec : ∀ (cs : NodeList) (ls : List LNode),
    SameSpecList (writeBackList cs ls) cs
  | .nil, _ => .nil
  | .cons c cs, [] => SameSpecList.reflList _
  | .cons c cs, l :: ls =>
    .cons (writeBack_sameSpec c l) (writeBackList_sameSpec cs ls)
end

/-- Two children agree for congruence purposes: same style, same
intrinsic size, and the child-layout procedures agree on them. -/
def NodeAgree (lf lf' : LayoutFn) (c c' : Node) : Prop :=
  c.style = c'.style ∧ c.intrinsic = c'.intrinsic
  ∧ ∀ (a b : ℚ) (u v : Bool), lf c a b u v = lf' c' a b u v

theorem rowPass1Child_congr {lf lf' : LayoutFn} {c c' : Node}
    (h : NodeAgree lf lf' c c') (ah rw : ℚ) :
    rowPass1Child lf ah rw c = rowPass1Child lf' ah rw c' := by
  obtain ⟨hs, hi, hlf⟩ := h
  simp only [rowPass1Child, hs, hi, hlf]

/-- Congruence for passes 1 and 2 on one child: the stale default of
the already-laid-out branches is never consulted, because pass 1
produced a layout in exactly those branches. -/
theorem rowPass12Child_congr {lf lf' : LayoutFn} {c c' : Node}
    (h : NodeAgree lf lf' c c') (ah rw q : ℚ) :
    rowPass2Child lf ah q c (rowPass1Child lf ah rw c)
      = rowPass2Child lf' ah q c' (rowPass1Child lf' ah rw c') := by
  obtain ⟨hs, hi, hlf⟩ := h
  rcases hw : c'.style.width with _ | w
  · rcases hi2 : c'.intrinsic.width with _ | v | v <;>
      by_cases hf : c'.style.flex = 0 <;>
      simp [rowPass1Child, rowPass2Child, hs, hi, hlf, hw, hi2, hf]
  · simp [rowPass1Child, rowPass2Child, hs, hi, hlf, hw]

theorem rowPass1_congr {lf lf' : LayoutFn} (ah : ℚ) :
    ∀ {cs cs' : List Node}, List.Forall₂ (NodeAgree lf lf') cs cs' →
      ∀ st : RowSt,
      (rowPass1 lf ah st cs).1 = (rowPass1 lf' ah st cs').1
      ∧ List.Forall₂
          (fun (cp cp' : Node × RowP1) =>
            NodeAgree lf lf' cp.1 cp'.1 ∧ cp.2 = cp'.2
            ∧ ∃ rw, cp.2 = rowPass1Child lf ah rw cp.1
              ∧ cp'.2 = rowPass1Child lf' ah rw cp'.1)
          (rowPass1 lf ah st cs).2 (rowPass1 lf' ah st cs').2 := by
  intro cs cs' h
  induction h with
  | nil => exact fun st => ⟨rfl, .nil⟩
  | @cons c c' cs₀ cs₀' hcc hrest ih =>
    intro st
    have hp : rowPass1Child lf ah st.remaining_width c
        = rowPass1Child lf' ah st.remaining_width c' :=
      rowPass1Child_congr hcc ah st.remaining_width
    simp only [rowPass1, hp, hcc.1]
    exact ⟨(ih _).1,
      .cons ⟨hcc, rfl, st.remaining_width, hp.symm, rfl⟩ (ih _).2⟩

theorem foldl_congr_forall₂ {α β γ : Type _} {R : α → γ → Prop}
    {f : β → α → β} {g : β → γ → β}
    (hfg : ∀ b a c, R a c → f b a = g b c) :
    ∀ {l₁ : List α} {l₂ : List γ}, List.Forall₂ R l₁ l₂ →
      ∀ b, l₁.foldl f b = l₂.foldl g b := by
  intro l₁ l₂ h
  induction h with
  | nil => exact fun _ => rfl
  | cons hab hrest ih =>
    intro b
    simp only [List.foldl]
    rw [hfg b _ _ hab]
    exact ih _

theorem rowQuantum_congr {cs cs' : List Node}
    (h : List.Forall₂
      (fun c c' => c.style = c'.style ∧ c.intrinsic = c'.intrinsic) cs cs')
    (st : RowSt) : rowQuantum cs st = rowQuantum cs' st := by
  have hf : ∀ q0 : ℚ,
      cs.foldl (rowOverflowStep q0) (st.flex_total, st.min_flex)
        = cs'.foldl (rowOverflowStep q0) (st.flex_total, st.min_flex) :=
    fun q0 => foldl_congr_forall₂
      (fun b a c hac => by simp only [rowOverflowStep, hac.1, hac.2]) h _
  simp only [rowQuantum, hf]

theorem rowPass2_congr {lf lf' : LayoutFn} (ah q : ℚ) :
    ∀ {prs prs' : List (Node × RowP1)},
      List.Forall₂
        (fun cp cp' => NodeAgree lf lf' cp.1 cp'.1 ∧ cp.2 = cp'.2
          ∧ ∃ rw, cp.2 = rowPass1Child lf ah rw cp.1
            ∧ cp'.2 = rowPass1Child lf' ah rw cp'.1) prs prs' →
      List.Forall₂ (fun cl cl' => cl.1.style = cl'.1.style ∧ cl.2 = cl'.2)
          (rowPass2 lf ah q prs).1 (rowPass2 lf' ah q prs').1
      ∧ (rowPass2 lf ah q prs).2 = (rowPass2 lf' ah q prs').2 := by
  intro prs prs' h
  induction h with
  | nil => exact ⟨.nil, rfl⟩
  | @cons cp cp' prs₀ prs₀' hcc hrest ih =>
    obtain ⟨c, p⟩ := cp
    obtain ⟨c', p'⟩ := cp'
    obtain ⟨hna, hpp, rw', hp1, hp2⟩ := hcc
    dsimp only at hna hpp hp1 hp2
    have hc2 : rowPass2Child lf ah q c p = rowPass2Child lf' ah q c' p' := by
      rw [hp1, hp2]
      exact rowPass12Child_congr hna ah rw' q
    simp only [rowPass2, hc2]
    exact ⟨.cons ⟨hna.1, rfl⟩ ih.1, by rw [ih.2]⟩

theorem rowPass3_congr (rtl : Bool) (w : ℚ) :
    ∀ {prs prs' : List (Node × LNode)},
      List.Forall₂ (fun cl cl' => cl.1.style = cl'.1.style ∧ cl.2 = cl'.2)
        prs prs' →
      ∀ off h0 mh0 : ℚ,
        List.Forall₂ (fun cl cl' => cl.1.style = cl'.1.style ∧ cl.2 = cl'.2)
          (rowPass3 rtl w off h0 mh0 prs).1 (rowPass3 rtl w off h0 mh0 prs').1
        ∧ (rowPass3 rtl w off h0 mh0 prs).2
          = (rowPass3 rtl w off h0 mh0 prs').2 := by
  intro prs prs' h
  induction h with
  | nil => exact fun _ _ _ => ⟨.nil, rfl⟩
  | @cons cl cl' prs₀ prs₀' hcc hrest ih =>
    obtain ⟨c, ln⟩ := cl
    obtain ⟨c', ln'⟩ := cl'
    obtain ⟨hs, hl⟩ := hcc
    cases hl
    intro off h0 mh0
    simp only [rowPass3, hs]
    exact ⟨.cons ⟨hs, rfl⟩ (ih _ _ _).1, (ih _ _ _).2⟩

theorem rowPass4_congr (ai : Option AlignItems) (hh : ℚ) :
    ∀ {prs prs' : List (Node × LNode)},
      List.Forall₂ (fun cl cl' => cl.1.style = cl'.1.style ∧ cl.2 = cl'.2)
        prs prs' →
      rowPass4 ai hh prs = rowPass4 ai hh prs' := by
  intro prs prs' h
  induction h with
  | nil => rfl
  | @cons cl cl' prs₀ prs₀' hcc hrest ih =>
    obtain ⟨c, ln⟩ := cl
    obtain ⟨c', ln'⟩ := cl'
    obtain ⟨hs, hl⟩ := hcc
    cases hl
    simp only [rowPass4, rowPass4Child, hs, ih]

/-- Congruence for `_layout_row_children`: two child lists that agree
in specification produce identical results. -/
theorem layoutRowChildren_congr {lf lf' : LayoutFn} (s : Style)
    {cs cs' : List Node} (h : List.Forall₂ (NodeAgree lf lf') cs cs')
    (aw ah : ℚ) (uw uh : Bool) :
    layoutRowChildren lf s cs aw ah uw uh
      = layoutRowChildren lf' s cs' aw ah uw uh := by
  simp only [layoutRowChildren]
  have h1 := rowPass1_congr ah h (⟨0, 0, 0, 0, aw⟩ : RowSt)
  have hq : rowQuantum cs (rowPass1 lf ah ⟨0, 0, 0, 0, aw⟩ cs).1
      = rowQuantum cs' (rowPass1 lf' ah ⟨0, 0, 0, 0, aw⟩ cs').1 := by
    rw [← h1.1]
    exact rowQuantum_congr (h.imp (fun _ _ hna => ⟨hna.1, hna.2.1⟩)) _
  rw [← hq, ← h1.1]
  have h2 := rowPass2_congr ah
    (rowQuantum cs (rowPass1 lf ah ⟨0, 0, 0, 0, aw⟩ cs).1) h1.2
  rw [← h2.2]
  rw [(rowPass3_congr (s.text_direction == .rtl) _ h2.1 0 0 0).2,
    rowPass4_congr s.align_items _
      ((rowPass3_congr (s.text_direction == .rtl) _ h2.1 0 0 0).1)]

theorem colPass1Child_congr {lf lf' : LayoutFn} {c c' : Node}
    (h : NodeAgree lf lf' c c') (aw rh : ℚ) :
    colPass1Child lf aw rh c = colPass1Child lf' aw rh c' := by
  obtain ⟨hs, hi, hlf⟩ := h
  simp only [colPass1Child, hs, hi, hlf]

theorem colPass12Child_congr {lf lf' : LayoutFn} {c c' : Node}
    (h : NodeAgree lf lf' c c') (aw rh q : ℚ) :
    colPass2Child lf aw q c (colPass1Child lf aw rh c)
      = colPass2Child lf' aw q c' (colPass1Child lf' aw rh c') := by
  obtain ⟨hs, hi, hlf⟩ := h
  rcases hw : c'.style.height with _ | w
  · rcases hi2 : c'.intrinsic.height with _ | v | v <;>
      by_cases hf : c'.style.flex = 0 <;>
      simp [colPass1Child, colPass2Child, hs, hi, hlf, hw, hi2, hf]
  · simp [colPass1Child, colPass2Child, hs, hi, hlf, hw]

theorem colPass1_congr {lf lf' : LayoutFn} (aw : ℚ) :
    ∀ {cs cs' : List Node}, List.Forall₂ (NodeAgree lf lf') cs cs' →
      ∀ st : ColSt,
      (colPass1 lf aw st cs).1 = (colPass1 lf' aw st cs').1
      ∧ List.Forall₂
          (fun (cp cp' : Node × ColP1) =>
            NodeAgree lf lf' cp.1 cp'.1 ∧ cp.2 = cp'.2
            ∧ ∃ rh, cp.2 = colPass1Child lf aw rh cp.1
              ∧ cp'.2 = colPass1Child lf' aw rh cp'.1)
          (colPass1 lf aw st cs).2 (colPass1 lf' aw st cs').2 := by
  intro cs cs' h
  induction h with
  | nil => exact fun st => ⟨rfl, .nil⟩
  | @cons c c' cs₀ cs₀' hcc hrest ih =>
    intro st
    have hp : colPass1Child lf aw st.remaining_height c
        = colPass1Child lf' aw st.remaining_height c' :=
      colPass1Child_congr hcc aw st.remaining_height
    simp only [colPass1, hp, hcc.1]
    exact ⟨(ih _).1,
      .cons ⟨hcc, rfl, st.remaining_height, hp.symm, rfl⟩ (ih _).2⟩

theorem colQuantum_congr {cs cs' : List Node}
    (h : List.Forall₂
      (fun c c' => c.style = c'.style ∧ c.intrinsic = c'.intrinsic) cs cs')
    (st : ColSt) : colQuantum cs st = colQuantum cs' st := by
  have hf : ∀ q0 : ℚ,
      cs.foldl (colOverflowStep q0) (st.flex_total, st.min_flex)
        = cs'.foldl (colOverflowStep q0) (st.flex_total, st.min_flex) :=
    fun q0 => foldl_congr_forall₂
      (fun b a c hac => by simp only [colOverflowStep, hac.1, hac.2]) h _
  simp only [colQuantum, hf]

theorem colPass2_congr {lf lf' : LayoutFn} (aw q : ℚ) :
    ∀ {prs prs' : List (Node × ColP1)},
      List.Forall₂
        (fun cp cp' => NodeAgree lf lf' cp.1 cp'.1 ∧ cp.2 = cp'.2
          ∧ ∃ rh, cp.2 = colPass1Child lf aw rh cp.1
            ∧ cp'.2 = colPass1Child lf' aw rh cp'.1) prs prs' →
      List.Forall₂ (fun cl cl' => cl.1.style = cl'.1.style ∧ cl.2 = cl'.2)
          (colPass2 lf aw q prs).1 (colPass2 lf' aw q prs').1
      ∧ (colPass2 lf aw q prs).2 = (colPass2 lf' aw q prs').2 := by
  intro prs prs' h
  induction h with
  | nil => exact ⟨.nil, rfl⟩
  | @cons cp cp' prs₀ prs₀' hcc hrest ih =>
    obtain ⟨c, p⟩ := cp
    obtain ⟨c', p'⟩ := cp'
    obtain ⟨hna, hpp, rh', hp1, hp2⟩ := hcc
    dsimp only at hna hpp hp1 hp2
    have hc2 : colPass2Child lf aw q c p = colPass2Child lf' aw q c' p' := by
      rw [hp1, hp2]
      exact colPass12Child_congr hna aw rh' q
    simp only [colPass2, hc2]
    exact ⟨.cons ⟨hna.1, rfl⟩ ih.1, by rw [ih.2]⟩

theorem colPass3_congr :
    ∀ {prs prs' : List (Node × LNode)},
      List.Forall₂ (fun cl cl' => cl.1.style = cl'.1.style ∧ cl.2 = cl'.2)
        prs prs' →
      ∀ off w0 mw0 : ℚ,
        List.Forall₂ (fun cl cl' => cl.1.style = cl'.1.style ∧ cl.2 = cl'.2)
          (colPass3 off w0 mw0 prs).1 (colPass3 off w0 mw0 prs').1
        ∧ (colPass3 off w0 mw0 prs).2 = (colPass3 off w0 mw0 prs').2 := by
  intro prs prs' h
  induction h with
  | nil => exact fun _ _ _ => ⟨.nil, rfl⟩
  | @cons cl cl' prs₀ prs₀' hcc hrest ih =>
    obtain ⟨c, ln⟩ := cl
    obtain ⟨c', ln'⟩ := cl'
    obtain ⟨hs, hl⟩ := hcc
    cases hl
    intro off w0 mw0
    simp only [colPass3, hs]
    exact ⟨.cons ⟨hs, rfl⟩ (ih _ _ _).1, (ih _ _ _).2⟩

theorem colPass4_congr (td : TextDirection) (ai : Option AlignItems)
    (ww : ℚ) :
    ∀ {prs prs' : List (Node × LNode)},
      List.Forall₂ (fun cl cl' => cl.1.style = cl'.1.style ∧ cl.2 = cl'.2)
        prs prs' →
      colPass4 td ai ww prs = colPass4 td ai ww prs' := by
  intro prs prs' h
  induction h with
  | nil => rfl
  | @cons cl cl' prs₀ prs₀' hcc hrest ih =>
    obtain ⟨c, ln⟩ := cl
    obtain ⟨c', ln'⟩ := cl'
    obtain ⟨hs, hl⟩ := hcc
    cases hl
    simp only [colPass4, colPass4Child, hs, ih]

/-- Congruence for `_layout_column_children`. -/
theorem layoutColumnChildren_congr {lf lf' : LayoutFn} (s : Style)
    {cs cs' : List Node} (h : List.Forall₂ (NodeAgree lf lf') cs cs')
    (aw ah : ℚ) (uw uh : Bool) :
    layoutColumnChildren lf s cs aw ah uw uh
      = layoutColumnChildren lf' s cs' aw ah uw uh := by
  simp only [layoutColumnChildren]
  have h1 := colPass1_congr aw h (⟨0, 0, 0, 0, ah⟩ : ColSt)
  have hq : colQuantum cs (colPass1 lf aw ⟨0, 0, 0, 0, ah⟩ cs).1
      = colQuantum cs' (colPass1 lf' aw ⟨0, 0, 0, 0, ah⟩ cs').1 := by
    rw [← h1.1]
    exact colQuantum_congr (h.imp (fun _ _ hna => ⟨hna.1, hna.2.1⟩)) _
  rw [← hq, ← h1.1]
  have h2 := colPass2_congr aw
    (colQuantum cs (colPass1 lf aw ⟨0, 0, 0, 0, ah⟩ cs).1) h1.2
  rw [← h2.2]
  rw [(colPass3_congr h2.1 0 0 0).2,
    colPass4_congr s.text_direction s.align_items _
      ((colPass3_congr h2.1 0 0 0).1)]

/-- `_layout_node` never reads the pre-call contents of any `layout`
slot: two trees with the same specification lay out identically. -/
theorem layoutNode_congr :
    ∀ (fuel : Nat) (n n' : Node) (aw ah : ℚ) (uw uh : Bool),
      SameSpec n n' → nsize n ≤ fuel →
      layoutNode fuel n aw ah uw uh = layoutNode fuel n' aw ah uw uh := by
  intro fuel
  induction fuel with
  | zero =>
    intro n n' aw ah uw uh _ hle
    exact absurd (lt_of_lt_of_le (nsize_pos n) hle) (by simp)
  | succ fuel ih =>
    intro n n' aw ah uw uh hss hle
    cases hss with
    | @mk s i p p' cs cs' hcl =>
      have hfa : List.Forall₂ (NodeAgree (layoutNode fuel) (layoutNode fuel))
          cs.toList cs'.toList := by
        refine (forall₂_and_mem (SameSpecList.forall₂ hcl) ?_).imp
          (fun _ _ hx =>
            ⟨hx.2.style_eq, hx.2.intrinsic_eq,
              fun a b u v => ih _ _ a b u v hx.2 hx.1⟩)
        intro c hc
        have h1 := nsize_le_of_mem hc
        have h2 : nsizeList cs + 1 ≤ fuel + 1 := by
          simpa [nsize] using hle
        omega
      cases hcl with
      | nil => rfl
      | @cons c c' cs₀ cs₀' hc hcs =>
        simp only [layoutNode, Node.style_mk, Node.intrinsic_mk,
          Node.children_mk]
        rw [layoutRowChildren_congr s hfa _ _ uw uh,
          layoutColumnChildren_congr s hfa _ _ uw uh]

/-- `Pack.layout` depends only on the tree's specification, never on
pre-existing layout results. -/
theorem layout_congr {n n' : Node} (h : SameSpec n n') (vw vh : ℚ) :
    layout n vw vh = layout n' vw vh := by
  have hn := h.nsize_eq
  have hcongr := layoutNode_congr (nsize n') n n' vw vh true true h
    (le_of_eq hn)
  simp only [layout, hn, hcongr, h.style_eq]

/-- Claim C9: calling `layout` twice in succession on the same
unchanged tree with identical style, intrinsic-size and viewport inputs
produces identical layout results at every node — the second call, made
on the tree whose layout slots hold the first call's results, returns
exactly the first call's result tree. -/
theorem C9_layout_idempotent (n : Node) (vw vh : ℚ) :
    layout (writeBack n (layout n vw vh)) vw vh = layout n vw vh :=
  layout_congr (writeBack_sameSpec n (layout n vw vh)) vw vh

end Pack
